import Mathlib

set_option maxHeartbeats 1000000

/-!
Verification of the four range-minimum-query (RMQ) strategies of this
repository: `Naive`, `SRD` (square-root decomposition), `SegmentTree` and
`SparseTable`.  Each Python class is embedded shallowly: the mutable object
becomes a `State` structure, a method becomes a function from the state (and
the Python arguments) to an `Except` result.  A raised exception is modelled
as `.error (kind, state-at-raise-time)`, so that partial mutation before a
raise would be observable.  Python `float` values are idealised as exact
rationals extended with `⊤` for `float("inf")`; the only operations the code
performs on them are comparisons and `min`, which are exact on floats for the
operand sets at hand.  Dynamically-typed method arguments are modelled by
`PyVal`, so the `isinstance` checks are faithfully represented.  Loops and
recursions are translated with an explicit structural termination bound
(`fuel`), always instantiated at call sites with a value large enough that
the bound is never the reason a loop stops (for `for`-loops the bound is the
exact iteration count); this keeps every definition kernel-computable.
-/

/-- Values manipulated by the code: Python floats, idealised as `ℚ` plus a
top element standing for `float("inf")`. -/
abbrev V : Type := WithTop ℚ

deriving instance DecidableEq for Except

/-- The exception kinds raised by the validation code of the four classes:
`TypeError` (`invalidType`), `ValueError` on an empty construction input
(`emptyInput`), `IndexError` (`indexOOB`), and `ValueError` on an inverted
query range (`invalidRange`). -/
inductive Err : Type
  | invalidType
  | emptyInput
  | indexOOB
  | invalidRange
deriving DecidableEq, Repr

/-- A dynamically-typed Python argument, as far as the `isinstance` checks of
the code can distinguish them: an `int`, a `float`, or anything else. -/
inductive PyVal : Type
  | int (i : ℤ)
  | float (x : V)
  | other
deriving DecidableEq, Repr

/-- The element read `a[i]`: every read performed by the code is in bounds
after validation, so the default value is never observable. -/
def elem (a : List V) (i : ℕ) : V := a.getD i ⊤

/-- Specification side: the minimum over the literal elements `a[l..r]`
inclusive (`⊤` on an empty range), i.e. the direct linear scan the
specification compares every strategy against. -/
def scanMin (a : List V) (l r : ℕ) : V := (Finset.Icc l r).inf (elem a)

/-- Extract the state from a construction result (default on failure). -/
def initState {σ : Type} (r : Except Err σ) (d : σ) : σ :=
  match r with
  | .ok s => s
  | .error _ => d

/-- Extract the post-state of an `update` call (default on failure). -/
def stepState {σ : Type} (r : Except (Err × σ) σ) (d : σ) : σ :=
  match r with
  | .ok s => s
  | .error _ => d

/-- The error kind of a failed `update` call, if any. -/
def stepErr {σ : Type} (r : Except (Err × σ) σ) : Option Err :=
  match r with
  | .ok _ => none
  | .error (e, _) => some e

/-- The value returned by a successful `query` call, if any. -/
def queryOut {σ : Type} (r : Except (Err × σ) (V × σ)) : Option V :=
  match r with
  | .ok (v, _) => some v
  | .error _ => none

/-- The error kind of a failed `query` call, if any. -/
def queryErr {σ : Type} (r : Except (Err × σ) (V × σ)) : Option Err :=
  match r with
  | .ok _ => none
  | .error (e, _) => some e

/-- ceil(sqrt n) over exact reals, i.e. the least `m` with `n ≤ m * m`;
this is the value Python's `ceil(sqrt(n))` computes (`srd.py` line 42).
Structural linear search so that it kernel-evaluates. -/
def ceilSqrtAux (n : ℕ) : ℕ → ℕ → ℕ
  | 0, m => m
  | fuel+1, m => if n ≤ m * m then m else ceilSqrtAux n fuel (m + 1)

/-- ceil(sqrt n): `n + 1` search steps always suffice since `n ≤ n * n` for
all `n ≥ 1`. -/
def ceilSqrt (n : ℕ) : ℕ := ceilSqrtAux n (n + 1) 0

/-- ceil(a / b) over exact reals for `b > 0`, as Python's
`ceil(self.n / self.block_size)` computes (`srd.py` line 43). -/
def ceilDiv (a b : ℕ) : ℕ := (a + b - 1) / b

/-- ceil(log2 n) over exact reals, i.e. the least `j` with `n ≤ 2 ^ j`;
this is the value Python's `ceil(log2(n))` computes (`sparse_table.py`
line 48).  Structural linear search so that it kernel-evaluates. -/
def ceilLog2Aux (n : ℕ) : ℕ → ℕ → ℕ
  | 0, j => j
  | fuel+1, j => if n ≤ 2 ^ j then j else ceilLog2Aux n fuel (j + 1)

/-- ceil(log2 n): `n + 1` search steps always suffice since `n ≤ 2 ^ n`. -/
def ceilLog2 (n : ℕ) : ℕ := ceilLog2Aux n (n + 1) 0

/-- `n` is an exact power of two (the lengths on which `SparseTable`
construction crashes).  Bounded so that it is decidable. -/
def isPow2 (n : ℕ) : Prop := ∃ m, m < n ∧ n = 2 ^ m

instance (n : ℕ) : Decidable (isPow2 n) := by
  unfold isPow2
  infer_instance

namespace Naive

/-- The whole state of a `Naive` instance (`naive.py`): just the array. -/
structure State : Type where
  array : List V
deriving DecidableEq, Repr

/-- Naive.__init__ (naive.py lines 14-29).  The `isinstance(array, list)`
check is enforced by the typing of the embedding. -/
def init (array : List V) : Except Err State :=
  if array = [] then .error .emptyInput
  else .ok ⟨array⟩

/-- Naive.update (naive.py lines 31-49): index type check, value type check,
bounds check, then the single assignment. -/
def update (s : State) (index newValue : PyVal) : Except (Err × State) State :=
  match index with
  | .int i =>
    match newValue with
    | .float v =>
      if 0 ≤ i ∧ i < (s.array.length : ℤ) then .ok ⟨s.array.set i.toNat v⟩
      else .error (.indexOOB, s)
    | _ => .error (.invalidType, s)
  | _ => .error (.invalidType, s)

/-- The scan loop of Naive.query (naive.py lines 74-78):
`for i in range(left, right+1): if array[i] < current_min: ...`.
`count` is the exact number of remaining iterations. -/
def queryLoop (a : List V) : ℕ → ℕ → V → V
  | _, 0, cur => cur
  | i, c+1, cur => queryLoop a (i + 1) c (if elem a i < cur then elem a i else cur)

/-- Naive.query (naive.py lines 52-79): type checks, bounds checks, range
check, then a pure linear scan starting from `float("inf")`. -/
def query (s : State) (left right : PyVal) : Except (Err × State) (V × State) :=
  match left, right with
  | .int l, .int r =>
    if (0 ≤ l ∧ l < (s.array.length : ℤ)) ∧ (0 ≤ r ∧ r < (s.array.length : ℤ)) then
      if l > r then .error (.invalidRange, s)
      else .ok (queryLoop s.array l.toNat (r.toNat + 1 - l.toNat) ⊤, s)
    else .error (.indexOOB, s)
  | _, _ => .error (.invalidType, s)

end Naive

namespace SRD

/-- The whole state of an `SRD` instance (`srd.py`): the array, the cached
length `n`, the block size, and the per-block minima `feed`. -/
structure State : Type where
  array : List V
  n : ℕ
  block_size : ℕ
  feed : List V
deriving DecidableEq, Repr

/-- SRD.__init__ (srd.py lines 22-46): `block_size = ceil(sqrt(n))`,
`feed = [inf] * ceil(n / block_size)`, then one fold of every element into
its block slot. -/
def init (array : List V) : Except Err State :=
  if array = [] then .error .emptyInput
  else
    let n := array.length
    let bs := ceilSqrt n
    let feed := (List.range n).foldl
      (fun f index => f.set (index / bs) (min (f.getD (index / bs) ⊤) (elem array index)))
      (List.replicate (ceilDiv n bs) ⊤)
    .ok ⟨array, n, bs, feed⟩

/-- SRD.update (srd.py lines 48-72): validation, then `array[index] = v` and
the fold-only refresh `feed[b] = min(feed[b], v)` — the new value is folded
into the existing block minimum, the block is not rescanned. -/
def update (s : State) (index newValue : PyVal) : Except (Err × State) State :=
  match index with
  | .int i =>
    match newValue with
    | .float v =>
      if 0 ≤ i ∧ i < (s.array.length : ℤ) then
        let b := i.toNat / s.block_size
        .ok ⟨s.array.set i.toNat v, s.n, s.block_size,
             s.feed.set b (min (s.feed.getD b ⊤) v)⟩
      else .error (.indexOOB, s)
    | _ => .error (.invalidType, s)
  | _ => .error (.invalidType, s)

/-- First loop of SRD.query (srd.py lines 99-102):
`while left < right and left % block_size != 0`, folding single elements.
The fuel `right - left` bounds the iteration count, and the loop always
stops because its condition fails, never by fuel exhaustion. -/
def queryLoop1 (a : List V) (bs : ℕ) : ℕ → ℕ → ℕ → V → ℕ × V
  | 0, left, _, cur => (left, cur)
  | fuel+1, left, right, cur =>
    if left < right ∧ left % bs ≠ 0 then
      queryLoop1 a bs fuel (left + 1) right (min cur (elem a left))
    else (left, cur)

/-- Second loop of SRD.query (srd.py lines 104-107):
`while left + block_size <= right`, folding whole-block minima from `feed`.
For every constructed instance `block_size ≥ 1`, so fuel `right - left`
suffices and the loop stops because its condition fails.  (With a zero block
size the Python loop would not terminate; fuel exhaustion truncates that
unreachable behaviour.) -/
def queryLoop2 (feed : List V) (bs : ℕ) : ℕ → ℕ → ℕ → V → ℕ × V
  | 0, left, _, cur => (left, cur)
  | fuel+1, left, right, cur =>
    if left + bs ≤ right then
      queryLoop2 feed bs fuel (left + bs) right (min cur (feed.getD (left / bs) ⊤))
    else (left, cur)

/-- Third loop of SRD.query (srd.py lines 109-112): `while left <= right`,
folding the remaining single elements.  Fuel `right + 1 - left` is the exact
iteration count. -/
def queryLoop3 (a : List V) : ℕ → ℕ → ℕ → V → ℕ × V
  | 0, left, _, cur => (left, cur)
  | fuel+1, left, right, cur =>
    if left ≤ right then
      queryLoop3 a fuel (left + 1) right (min cur (elem a left))
    else (left, cur)

/-- SRD.query (srd.py lines 74-114): validation, then the three-phase scan
(leading partial block, full blocks via `feed`, trailing partial block). -/
def query (s : State) (left right : PyVal) : Except (Err × State) (V × State) :=
  match left, right with
  | .int li, .int ri =>
    if (0 ≤ li ∧ li < (s.array.length : ℤ)) ∧ (0 ≤ ri ∧ ri < (s.array.length : ℤ)) then
      if li > ri then .error (.invalidRange, s)
      else
        let l := li.toNat
        let r := ri.toNat
        let p1 := queryLoop1 s.array s.block_size (r - l) l r ⊤
        let p2 := queryLoop2 s.feed s.block_size (r - p1.1) p1.1 r p1.2
        let p3 := queryLoop3 s.array (r + 1 - p2.1) p2.1 r p2.2
        .ok (p3.2, s)
    else .error (.indexOOB, s)
  | _, _ => .error (.invalidType, s)

end SRD

namespace SegmentTree

/-- The whole state of a `SegmentTree` instance (`segment_tree.py`): the
array, the cached length `n`, and the tree.  The Python tree is a list of
length `4 * n`, which is a safe upper bound on every node index the
recursions visit; it is modelled as a total map from node index to value
(unallocated slots hold the initial `float("inf")`). -/
structure State : Type where
  array : List V
  n : ℕ
  tree : ℕ → V

/-- SegmentTree._construct_tree_recursive (segment_tree.py lines 43-61):
post-order build, leaf stores the element, internal node stores the min of
its two children.  The fuel bounds the recursion depth; `n` suffices from
the root since the interval shrinks at every level. -/
def constructRec (a : List V) : ℕ → (ℕ → V) → ℕ → ℕ → ℕ → (ℕ → V)
  | 0, t, _, _, _ => t
  | fuel+1, t, node, start, en =>
    if start = en then Function.update t node (elem a start)
    else
      let mid := (start + en) / 2
      let t1 := constructRec a fuel t (2 * node + 1) start mid
      let t2 := constructRec a fuel t1 (2 * node + 2) (mid + 1) en
      Function.update t2 node (min (t2 (2 * node + 1)) (t2 (2 * node + 2)))

/-- SegmentTree.__init__ (segment_tree.py lines 20-41): allocate the
`[inf] * (4 * n)` tree and build recursively from the root over
`[0, n - 1]`. -/
def init (array : List V) : Except Err State :=
  if array = [] then .error .emptyInput
  else
    let n := array.length
    .ok ⟨array, n, constructRec array n (fun _ => ⊤) 0 0 (n - 1)⟩

/-- SegmentTree._update_recursive (segment_tree.py lines 84-98): descend to
the leaf of `index` (left child iff `index ≤ mid`), overwrite the array slot
and the leaf, recompute each ancestor as the min of its children. -/
def updateRec (v : V) (index : ℕ) :
    ℕ → List V → (ℕ → V) → ℕ → ℕ → ℕ → List V × (ℕ → V)
  | 0, a, t, _, _, _ => (a, t)
  | fuel+1, a, t, node, start, en =>
    if start = en then (a.set index v, Function.update t node v)
    else
      let mid := (start + en) / 2
      if index ≤ mid then
        let p := updateRec v index fuel a t (2 * node + 1) start mid
        (p.1, Function.update p.2 node (min (p.2 (2 * node + 1)) (p.2 (2 * node + 2))))
      else
        let p := updateRec v index fuel a t (2 * node + 2) (mid + 1) en
        (p.1, Function.update p.2 node (min (p.2 (2 * node + 1)) (p.2 (2 * node + 2))))

/-- SegmentTree.update (segment_tree.py lines 63-82): validation, then the
recursive descent from the root over `[0, n - 1]`. -/
def update (s : State) (index newValue : PyVal) : Except (Err × State) State :=
  match index with
  | .int i =>
    match newValue with
    | .float v =>
      if 0 ≤ i ∧ i < (s.array.length : ℤ) then
        let p := updateRec v i.toNat s.n s.array s.tree 0 0 (s.n - 1)
        .ok ⟨p.1, s.n, p.2⟩
      else .error (.indexOOB, s)
    | _ => .error (.invalidType, s)
  | _ => .error (.invalidType, s)

/-- SegmentTree._query_recursive (segment_tree.py lines 124-144): the
three-case range decomposition (disjoint → `inf`, contained → node value,
partial → recurse on both children and combine with `min`). -/
def queryRec (t : ℕ → V) : ℕ → ℕ → ℕ → ℕ → ℕ → ℕ → V
  | 0, _, _, _, _, _ => ⊤
  | fuel+1, node, start, en, left, right =>
    if right < start ∨ en < left then ⊤
    else if left ≤ start ∧ en ≤ right then t node
    else
      let mid := (start + en) / 2
      min (queryRec t fuel (2 * node + 1) start mid left right)
          (queryRec t fuel (2 * node + 2) (mid + 1) en left right)

/-- SegmentTree.query (segment_tree.py lines 100-122): validation, then the
recursive decomposition from the root over `[0, n - 1]`. -/
def query (s : State) (left right : PyVal) : Except (Err × State) (V × State) :=
  match left, right with
  | .int l, .int r =>
    if (0 ≤ l ∧ l < (s.array.length : ℤ)) ∧ (0 ≤ r ∧ r < (s.array.length : ℤ)) then
      if l > r then .error (.invalidRange, s)
      else .ok (queryRec s.tree s.n 0 0 (s.n - 1) l.toNat r.toNat, s)
    else .error (.indexOOB, s)
  | _, _ => .error (.invalidType, s)

end SegmentTree

namespace SparseTable

/-- The whole state of a `SparseTable` instance (`sparse_table.py`): the
array, the cached length `n`, the log-table `lt` and the sparse table
`st` (a list of `n` rows, each allocated with `ceil(log2 n)` columns). -/
structure State : Type where
  array : List V
  n : ℕ
  lt : List ℕ
  st : List (List V)
deriving DecidableEq, Repr

/-- The log-table loop of SparseTable.__init__ (sparse_table.py lines
43-45): `lt = [0] * (n+1); for i in range(2, n+1): lt[i] = lt[i//2] + 1`. -/
def ltBuild (n : ℕ) : List ℕ :=
  (List.range' 2 (n - 1)).foldl
    (fun lt i => lt.set i (lt.getD (i / 2) 0 + 1))
    (List.replicate (n + 1) 0)

/-- A write `st[i][j] = v`: `none` models the `IndexError` Python raises
when the column index exceeds the allocated `ceil(log2 n)` levels (or the
row index is out of range, which never happens). -/
def setST (st : List (List V)) (i j : ℕ) (v : V) : Option (List (List V)) :=
  if i < st.length ∧ j < (st.getD i []).length then
    some (st.set i ((st.getD i []).set j v))
  else none

/-- A read `st[i][j]`; every read the code performs is in bounds whenever
the enclosing write succeeds, so the default is not observable. -/
def getST (st : List (List V)) (i j : ℕ) : V := (st.getD i []).getD j ⊤

/-- Level-0 loop of SparseTable._build_sparse_table (sparse_table.py lines
56-58): `for i in range(n): st[i][0] = array[i]`.  On failure the table at
the moment of the raise is returned.  The fuel is the exact iteration
count. -/
def buildLevel0 (a : List V) : ℕ → List (List V) → ℕ → Except (List (List V)) (List (List V))
  | 0, st, _ => .ok st
  | fuel+1, st, i =>
    match setST st i 0 (elem a i) with
    | none => .error st
    | some st1 => buildLevel0 a fuel st1 (i + 1)

/-- Inner loop of SparseTable._build_sparse_table (sparse_table.py lines
62-68): `while i + (1 << j) <= n`, writing
`st[i][j] = min(st[i][j-1], st[i + (1 << (j-1))][j-1])`.  Fuel `n + 1`
always exceeds the iteration count, so the loop stops because its condition
fails. -/
def buildInner (n j : ℕ) : ℕ → List (List V) → ℕ → Except (List (List V)) (List (List V))
  | 0, st, _ => .ok st
  | fuel+1, st, i =>
    if i + 2 ^ j ≤ n then
      match setST st i j (min (getST st i (j - 1)) (getST st (i + 2 ^ (j - 1)) (j - 1))) with
      | none => .error st
      | some st1 => buildInner n j fuel st1 (i + 1)
    else .ok st

/-- Outer loop of SparseTable._build_sparse_table (sparse_table.py lines
61-69): `j = 1; while (1 << j) <= n: ...inner...; j += 1`.  Fuel `n + 1`
always exceeds the iteration count. -/
def buildOuter (n : ℕ) : ℕ → List (List V) → ℕ → Except (List (List V)) (List (List V))
  | 0, st, _ => .ok st
  | fuel+1, st, j =>
    if 2 ^ j ≤ n then
      match buildInner n j (n + 1) st 0 with
      | .error st1 => .error st1
      | .ok st1 => buildOuter n fuel st1 (j + 1)
    else .ok st

/-- SparseTable._build_sparse_table (sparse_table.py lines 54-70): level 0,
then levels `j = 1, 2, ...` while `2 ^ j ≤ n`, mutating the existing table
in place. -/
def buildSparse (a : List V) (n : ℕ) (st : List (List V)) :
    Except (List (List V)) (List (List V)) :=
  match buildLevel0 a n st 0 with
  | .error st1 => .error st1
  | .ok st1 => buildOuter n (n + 1) st1 1

/-- SparseTable.__init__ (sparse_table.py lines 24-52): validation, the
log-table, the `n × ceil(log2 n)` allocation, then the build.  A build
failure aborts construction with the `IndexError`. -/
def init (array : List V) : Except Err State :=
  if array = [] then .error .emptyInput
  else
    let n := array.length
    let k := ceilLog2 n
    match buildSparse array n (List.replicate n (List.replicate k ⊤)) with
    | .error _ => .error .indexOOB
    | .ok st => .ok ⟨array, n, ltBuild n, st⟩

/-- SparseTable.update (sparse_table.py lines 72-92): validation (bounds
against the cached `n`), `array[index] = v`, then a full in-place rebuild of
the existing table.  On the (unreachable for any constructed instance)
rebuild failure the partially rewritten table is kept, as in Python. -/
def update (s : State) (index newValue : PyVal) : Except (Err × State) State :=
  match index with
  | .int i =>
    match newValue with
    | .float v =>
      if 0 ≤ i ∧ i < (s.n : ℤ) then
        let arr := s.array.set i.toNat v
        match buildSparse arr s.n s.st with
        | .error st1 => .error (.indexOOB, ⟨arr, s.n, s.lt, st1⟩)
        | .ok st1 => .ok ⟨arr, s.n, s.lt, st1⟩
      else .error (.indexOOB, s)
    | _ => .error (.invalidType, s)
  | _ => .error (.invalidType, s)

/-- SparseTable.query (sparse_table.py lines 94-118): validation, then the
O(1) combination `min(st[left][j], st[right - 2^j + 1][j])` with
`j = lt[right - left + 1]`. -/
def query (s : State) (left right : PyVal) : Except (Err × State) (V × State) :=
  match left, right with
  | .int li, .int ri =>
    if (0 ≤ li ∧ li < (s.array.length : ℤ)) ∧ (0 ≤ ri ∧ ri < (s.array.length : ℤ)) then
      if li > ri then .error (.invalidRange, s)
      else
        let l := li.toNat
        let r := ri.toNat
        let j := s.lt.getD (r - l + 1) 0
        .ok (min (getST s.st l j) (getST s.st (r + 1 - 2 ^ j) j), s)
    else .error (.indexOOB, s)
  | _, _ => .error (.invalidType, s)

end SparseTable

/-- Construct-then-query pipeline for `Naive`, used to compare the four
strategies on a fixed sequence. -/
def Naive.runQ (a : List V) (l r : ℤ) : Except Err V :=
  match Naive.init a with
  | .error e => .error e
  | .ok s =>
    match Naive.query s (.int l) (.int r) with
    | .error p => .error p.1
    | .ok p => .ok p.1

/-- Construct-then-query pipeline for `SRD`. -/
def SRD.runQ (a : List V) (l r : ℤ) : Except Err V :=
  match SRD.init a with
  | .error e => .error e
  | .ok s =>
    match SRD.query s (.int l) (.int r) with
    | .error p => .error p.1
    | .ok p => .ok p.1

/-- Construct-then-query pipeline for `SegmentTree`. -/
def SegmentTree.runQ (a : List V) (l r : ℤ) : Except Err V :=
  match SegmentTree.init a with
  | .error e => .error e
  | .ok s =>
    match SegmentTree.query s (.int l) (.int r) with
    | .error p => .error p.1
    | .ok p => .ok p.1

/-- Construct-then-query pipeline for `SparseTable`. -/
def SparseTable.runQ (a : List V) (l r : ℤ) : Except Err V :=
  match SparseTable.init a with
  | .error e => .error e
  | .ok s =>
    match SparseTable.query s (.int l) (.int r) with
    | .error p => .error p.1
    | .ok p => .ok p.1

/-! ### Generic helper lemmas -/

theorem getD_set_self {α : Type} {l : List α} {i : ℕ} (v : α) (h : i < l.length) (d : α) :
    (l.set i v).getD i d = v := by
  simp [List.getD_eq_getElem?_getD, List.getElem?_set_self', List.getElem?_eq_getElem h]

theorem getD_set_ne {α : Type} {l : List α} {i j : ℕ} (v : α) (h : i ≠ j) (d : α) :
    (l.set i v).getD j d = l.getD j d := by
  simp [List.getD_eq_getElem?_getD, List.getElem?_set_ne h]

theorem Icc_insert_left {l r : ℕ} (h : l ≤ r) :
    Finset.Icc l r = insert l (Finset.Icc (l + 1) r) := by
  ext x
  simp only [Finset.mem_Icc, Finset.mem_insert]
  omega

theorem Ico_insert_left {l r : ℕ} (h : l < r) :
    Finset.Ico l r = insert l (Finset.Ico (l + 1) r) := by
  ext x
  simp only [Finset.mem_Ico, Finset.mem_insert]
  omega

theorem Ico_union_Icc_eq_Icc {a b c : ℕ} (h1 : a ≤ b) (h2 : b ≤ c) :
    Finset.Ico a b ∪ Finset.Icc b c = Finset.Icc a c := by
  ext x
  simp only [Finset.mem_Ico, Finset.mem_Icc, Finset.mem_union]
  omega

theorem if_lt_eq_min {x m : V} : (if x < m then x else m) = min m x := by
  rcases lt_trichotomy x m with h | h | h
  · simp [h, min_eq_right h.le]
  · simp [h]
  · rw [if_neg (by exact not_lt_of_gt h), min_eq_left h.le]

/-! ### The linear-scan specification -/

/-- Count-based form of the scan minimum: the minimum of the `c` elements
starting at index `l`, shaped like the left-to-right loops of the code. -/
def scanMinC (a : List V) : ℕ → ℕ → V
  | _, 0 => ⊤
  | l, c + 1 => min (elem a l) (scanMinC a (l + 1) c)

theorem scanMinC_eq_inf_Ico (a : List V) :
    ∀ c l, scanMinC a l c = (Finset.Ico l (l + c)).inf (elem a) := by
  intro c
  induction c with
  | zero => intro l; simp [scanMinC]
  | succ c ih =>
    intro l
    have h1 : l + (c + 1) = l + 1 + c := by omega
    rw [scanMinC, ih (l + 1), h1, Ico_insert_left (show l < l + 1 + c by omega),
      Finset.inf_insert, inf_eq_min]

theorem scanMin_eq_scanMinC {a : List V} {l r : ℕ} (h : l ≤ r) :
    scanMin a l r = scanMinC a l (r + 1 - l) := by
  have he : l + (r + 1 - l) = r + 1 := by omega
  rw [scanMin, scanMinC_eq_inf_Ico, he, ← Nat.Ico_succ_right]

theorem scanMin_singleton (a : List V) (l : ℕ) : scanMin a l l = elem a l := by
  simp [scanMin]

theorem scanMin_insert_left {a : List V} {l r : ℕ} (h : l ≤ r) :
    scanMin a l r = min (elem a l) (scanMin a (l + 1) r) := by
  rcases Nat.eq_or_lt_of_le h with rfl | hlt
  · rw [scanMin_singleton, scanMin, Finset.Icc_eq_empty (by omega), Finset.inf_empty,
      min_top_right]
  · rw [scanMin, Icc_insert_left h, Finset.inf_insert, inf_eq_min, scanMin]

theorem scanMin_split {a : List V} {l m r : ℕ} (h1 : l ≤ m) (h2 : m < r) :
    scanMin a l r = min (scanMin a l m) (scanMin a (m + 1) r) := by
  rw [scanMin, scanMin, scanMin, ← inf_eq_min, ← Finset.inf_union]
  congr 1
  ext x
  simp only [Finset.mem_Icc, Finset.mem_union]
  omega

theorem scanMin_congr {a b : List V} {l r : ℕ}
    (h : ∀ i, l ≤ i → i ≤ r → elem a i = elem b i) : scanMin a l r = scanMin b l r := by
  refine Finset.inf_congr rfl ?_
  intro i hi
  rw [Finset.mem_Icc] at hi
  exact h i hi.1 hi.2

theorem elem_set_self {a : List V} {i : ℕ} (v : V) (h : i < a.length) :
    elem (a.set i v) i = v := getD_set_self v h ⊤

theorem elem_set_ne {a : List V} {i j : ℕ} (v : V) (h : i ≠ j) :
    elem (a.set i v) j = elem a j := getD_set_ne v h ⊤

theorem scanMin_set_outside {a : List V} {i l r : ℕ} (v : V) (h : i < l ∨ r < i) :
    scanMin (a.set i v) l r = scanMin a l r := by
  refine scanMin_congr ?_
  intro j h1 h2
  exact elem_set_ne v (by omega)

/-! ### Naive: the scan loop computes the scan minimum -/

theorem Naive.queryLoop_eq (a : List V) :
    ∀ c l cur, Naive.queryLoop a l c cur = min cur (scanMinC a l c) := by
  intro c
  induction c with
  | zero => intro l cur; simp [Naive.queryLoop, scanMinC, min_top_right]
  | succ c ih =>
    intro l cur
    rw [Naive.queryLoop, ih, if_lt_eq_min, scanMinC, ← min_assoc]

theorem Naive.query_eq_scanMin_naive {s : Naive.State} {l r : ℕ} (hl : l ≤ r)
    (hr : r < s.array.length) :
    Naive.query s (.int l) (.int r) = .ok (scanMin s.array l r, s) := by
  have hb : (0 ≤ (l : ℤ) ∧ (l : ℤ) < (s.array.length : ℤ)) ∧
      (0 ≤ (r : ℤ) ∧ (r : ℤ) < (s.array.length : ℤ)) := by omega
  rw [Naive.query, if_pos hb, if_neg (by omega : ¬ ((l : ℤ) > (r : ℤ)))]
  rw [Naive.queryLoop_eq, Int.toNat_natCast, Int.toNat_natCast, min_top_left,
    ← scanMin_eq_scanMinC hl]

/-! ### SRD: blocks, the feed array, and the three-phase query -/

/-- The minimum of the sequence elements belonging to block `b` of the
square-root decomposition: exactly the elements `a[i]`, `i < n`, with
`i / block_size = b` (the partition `srd.py` lines 44-46 folds over). -/
def blockMin (a : List V) (n bs b : ℕ) : V :=
  ((Finset.range n).filter (fun i => i / bs = b)).inf (elem a)

theorem div_eq_iff_of_pos {bs q i : ℕ} (h : 0 < bs) :
    i / bs = q ↔ (bs * q ≤ i ∧ i < bs * (q + 1)) := by
  constructor
  · rintro rfl
    refine ⟨?_, ?_⟩
    · rw [Nat.mul_comm]
      exact Nat.div_mul_le_self i bs
    · rw [Nat.mul_comm]
      exact (Nat.div_lt_iff_lt_mul h).mp (Nat.lt_succ_self _)
  · rintro ⟨h1, h2⟩
    refine Nat.le_antisymm ?_ ?_
    · have h3 : i < (q + 1) * bs := by rw [Nat.mul_comm]; exact h2
      exact Nat.lt_succ_iff.mp ((Nat.div_lt_iff_lt_mul h).mpr h3)
    · rw [Nat.le_div_iff_mul_le h, Nat.mul_comm]
      exact h1

theorem getD_replicate_top (n i : ℕ) : (List.replicate n (⊤ : V)).getD i ⊤ = ⊤ := by
  rw [List.getD_eq_getElem?_getD]
  exact List.getD_replicate_default_eq ⊤ n i

/-- Length invariance of the feed-building fold. -/
theorem feedFold_length (bs : ℕ) (g : List V → ℕ → List V)
    (hg : ∀ f i, (g f i).length = f.length) :
    ∀ (L : List ℕ) (f : List V), (L.foldl g f).length = f.length := by
  intro L
  induction L with
  | nil => intro f; rfl
  | cons x xs ih => intro f; rw [List.foldl_cons, ih, hg]

/-- The feed fold of `SRD.__init__` computes every block minimum: after
folding the elements of `range m` (`m ≤ n`), slot `b` holds the minimum over
the processed members of block `b`. -/
theorem SRD.feedFoldAux (a : List V) (n bs : ℕ) (hbs : 0 < bs) :
    ∀ m, m ≤ n → ∀ b,
      ((List.range m).foldl
        (fun f index => f.set (index / bs) (min (f.getD (index / bs) ⊤) (elem a index)))
        (List.replicate (ceilDiv n bs) ⊤)).getD b ⊤ =
      ((Finset.range m).filter (fun i => i / bs = b)).inf (elem a) := by
  intro m
  induction m with
  | zero =>
    intro _ b
    simp [getD_replicate_top]
  | succ m ih =>
    intro hm b
    have hlen : ((List.range m).foldl
        (fun f index => f.set (index / bs) (min (f.getD (index / bs) ⊤) (elem a index)))
        (List.replicate (ceilDiv n bs) ⊤)).length = ceilDiv n bs := by
      rw [feedFold_length bs _ (fun f i => List.length_set f _ _) _ _, List.length_replicate]
    have hland : m / bs < ceilDiv n bs := by
      have h1 : m / bs ≤ (n - 1) / bs := Nat.div_le_div_right (by omega)
      have h2 : (n - 1 + bs) / bs = (n - 1) / bs + 1 := Nat.add_div_right _ hbs
      have h3 : n + bs - 1 = n - 1 + bs := by omega
      have h4 : ceilDiv n bs = (n - 1) / bs + 1 := by unfold ceilDiv; rw [h3, h2]
      omega
    rw [List.range_succ, List.foldl_append, List.foldl_cons, List.foldl_nil,
      Finset.range_succ, Finset.filter_insert]
    by_cases hb : m / bs = b
    · rw [if_pos hb, ← hb, getD_set_self _ (by rw [hlen]; exact hland) ⊤, ih (by omega) (m / bs),
        Finset.inf_insert, inf_eq_min, hb, min_comm]
    · rw [if_neg hb, getD_set_ne _ hb ⊤, ih (by omega) b]

/-- After a successful `SRD.init`, the state is exactly the one built by
`__init__`. -/
theorem SRD.init_ok_srd {a : List V} {s : SRD.State} (h : SRD.init a = .ok s) :
    s = ⟨a, a.length, ceilSqrt a.length,
      (List.range a.length).foldl
        (fun f index => f.set (index / ceilSqrt a.length)
          (min (f.getD (index / ceilSqrt a.length) ⊤) (elem a index)))
        (List.replicate (ceilDiv a.length (ceilSqrt a.length)) ⊤)⟩ := by
  unfold SRD.init at h
  split at h
  · simp at h
  · exact (Except.ok.inj h).symm

theorem ceilSqrtAux_le (n : ℕ) : ∀ fuel m, m ≤ ceilSqrtAux n fuel m := by
  intro fuel
  induction fuel with
  | zero => intro m; exact Nat.le_refl m
  | succ fuel ih =>
    intro m
    rw [ceilSqrtAux]
    split
    · exact Nat.le_refl m
    · exact Nat.le_trans (Nat.le_succ m) (ih (m + 1))

theorem ceilSqrt_pos {n : ℕ} (h : 0 < n) : 0 < ceilSqrt n := by
  unfold ceilSqrt
  rw [ceilSqrtAux, if_neg (by omega : ¬ n ≤ 0 * 0)]
  exact Nat.lt_of_lt_of_le Nat.one_pos (ceilSqrtAux_le n n 1)

/-- After a successful `SRD.init`, every feed slot holds its block
minimum. -/
theorem SRD.init_feed {a : List V} {s : SRD.State} (h : SRD.init a = .ok s) (ha : a ≠ []) :
    ∀ b, s.feed.getD b ⊤ = blockMin s.array s.n s.block_size b := by
  intro b
  rw [SRD.init_ok_srd h]
  have hbs : 0 < ceilSqrt a.length := ceilSqrt_pos (by cases a with
    | nil => exact absurd rfl ha
    | cons x xs => simp)
  exact SRD.feedFoldAux a a.length (ceilSqrt a.length) hbs a.length (Nat.le_refl _) b

/-- Phase 3 of `SRD.query` folds every remaining element of `[left, right]`
into the running minimum (with fuel at least the iteration count). -/
theorem SRD.queryLoop3_spec (a : List V) :
    ∀ fuel left right cur, right + 1 - left ≤ fuel →
      (SRD.queryLoop3 a fuel left right cur).2 =
        min cur ((Finset.Ico left (right + 1)).inf (elem a)) := by
  intro fuel
  induction fuel with
  | zero =>
    intro left right cur hf
    rw [SRD.queryLoop3, Finset.Ico_eq_empty (by omega), Finset.inf_empty, min_top_right]
  | succ fuel ih =>
    intro left right cur hf
    rw [SRD.queryLoop3]
    by_cases hc : left ≤ right
    · rw [if_pos hc, ih (left + 1) right _ (by omega),
        Ico_insert_left (by omega : left < right + 1), Finset.inf_insert, inf_eq_min,
        ← min_assoc]
    · rw [if_neg hc, Finset.Ico_eq_empty (by omega), Finset.inf_empty, min_top_right]

/-- Phase 1 of `SRD.query`: advances `left` to the next block boundary (or to
`right`), folding the passed elements into the running minimum. -/
theorem SRD.queryLoop1_spec (a : List V) (bs : ℕ) :
    ∀ fuel left right cur, right - left ≤ fuel → left ≤ right →
      left ≤ (SRD.queryLoop1 a bs fuel left right cur).1 ∧
      (SRD.queryLoop1 a bs fuel left right cur).1 ≤ right ∧
      ((SRD.queryLoop1 a bs fuel left right cur).1 % bs = 0 ∨
        (SRD.queryLoop1 a bs fuel left right cur).1 = right) ∧
      (SRD.queryLoop1 a bs fuel left right cur).2 =
        min cur ((Finset.Ico left (SRD.queryLoop1 a bs fuel left right cur).1).inf (elem a)) := by
  intro fuel
  induction fuel with
  | zero =>
    intro left right cur hf hlr
    have hde : left = right := by omega
    rw [SRD.queryLoop1]
    exact ⟨Nat.le_refl _, hlr, Or.inr hde,
      by rw [Finset.Ico_eq_empty (by omega), Finset.inf_empty, min_top_right]⟩
  | succ fuel ih =>
    intro left right cur hf hlr
    rw [SRD.queryLoop1]
    by_cases hc : left < right ∧ left % bs ≠ 0
    · rw [if_pos hc]
      obtain ⟨ih1, ih2, ih3, ih4⟩ :=
        ih (left + 1) right (min cur (elem a left)) (by omega) (by omega)
      refine ⟨by omega, ih2, ih3, ?_⟩
      rw [ih4, Ico_insert_left (by omega : left < (SRD.queryLoop1 a bs fuel (left + 1) right
        (min cur (elem a left))).1), Finset.inf_insert, inf_eq_min, ← min_assoc]
    · rw [if_neg hc]
      push_neg at hc
      refine ⟨Nat.le_refl _, hlr, ?_, ?_⟩
      · by_cases hm : left % bs = 0
        · exact Or.inl hm
        · exact Or.inr (by omega)
      · rw [Finset.Ico_eq_empty (by omega), Finset.inf_empty, min_top_right]

/-- With an aligned `left` and a positive block size, the elements of the
block containing `left` are exactly `[left, left + bs)`, provided the block
lies inside `[0, n)`. -/
theorem blockMin_eq_Ico {a : List V} {n bs left : ℕ} (hbs : 0 < bs)
    (hal : left % bs = 0) (hin : left + bs ≤ n) :
    blockMin a n bs (left / bs) = (Finset.Ico left (left + bs)).inf (elem a) := by
  unfold blockMin
  congr 1
  ext i
  simp only [Finset.mem_filter, Finset.mem_range, Finset.mem_Ico]
  have hl : bs * (left / bs) = left := Nat.mul_div_cancel' (Nat.dvd_of_mod_eq_zero hal)
  have hl2 : bs * (left / bs + 1) = left + bs := by rw [Nat.mul_add, hl, Nat.mul_one]
  constructor
  · rintro ⟨hi, hq⟩
    have := (div_eq_iff_of_pos hbs).mp hq
    omega
  · rintro ⟨h1, h2⟩
    refine ⟨by omega, (div_eq_iff_of_pos hbs).mpr (by constructor <;> omega)⟩

/-- Phase 2 of `SRD.query`: jumps over the full blocks inside `[left, right]`,
folding each block minimum from `feed` into the running minimum.  Requires
the feed invariant. -/
theorem SRD.queryLoop2_spec (a feed : List V) (n bs : ℕ) (hbs : 0 < bs)
    (hfeed : ∀ b, feed.getD b ⊤ = blockMin a n bs b) :
    ∀ fuel left right cur, right - left ≤ fuel → left ≤ right → right < n →
      (left % bs = 0 ∨ right < left + bs) →
      left ≤ (SRD.queryLoop2 feed bs fuel left right cur).1 ∧
      (SRD.queryLoop2 feed bs fuel left right cur).1 ≤ right ∧
      right < (SRD.queryLoop2 feed bs fuel left right cur).1 + bs ∧
      (SRD.queryLoop2 feed bs fuel left right cur).2 =
        min cur ((Finset.Ico left (SRD.queryLoop2 feed bs fuel left right cur).1).inf (elem a)) := by
  intro fuel
  induction fuel with
  | zero =>
    intro left right cur hf hlr hrn hal
    rw [SRD.queryLoop2]
    exact ⟨Nat.le_refl _, hlr, by omega,
      by rw [Finset.Ico_eq_empty (by omega), Finset.inf_empty, min_top_right]⟩
  | succ fuel ih =>
    intro left right cur hf hlr hrn hal
    rw [SRD.queryLoop2]
    by_cases hc : left + bs ≤ right
    · rw [if_pos hc]
      have halg : left % bs = 0 := by
        rcases hal with h | h
        · exact h
        · omega
      have hB : feed.getD (left / bs) ⊤ = (Finset.Ico left (left + bs)).inf (elem a) := by
        rw [hfeed (left / bs), blockMin_eq_Ico hbs halg (by omega)]
      rw [hB]
      obtain ⟨ih1, ih2, ih3, ih4⟩ := ih (left + bs) right
        (min cur ((Finset.Ico left (left + bs)).inf (elem a))) (by omega) hc hrn
        (Or.inl (by rw [Nat.add_mod_right]; exact halg))
      refine ⟨by omega, ih2, ih3, ?_⟩
      rw [ih4, min_assoc]
      congr 1
      rw [← inf_eq_min, ← Finset.inf_union]
      congr 1
      ext x
      simp only [Finset.mem_union, Finset.mem_Ico]
      omega
    · rw [if_neg hc]
      exact ⟨Nat.le_refl _, hlr, by omega,
        by rw [Finset.Ico_eq_empty (by omega), Finset.inf_empty, min_top_right]⟩

/-- Under the feed invariant, `SRD.query` on a valid range returns exactly
the scan minimum. -/
theorem SRD.query_eq_scanMin_srd {s : SRD.State} {l r : ℕ}
    (hbs : 0 < s.block_size)
    (hfeed : ∀ b, s.feed.getD b ⊤ = blockMin s.array s.n s.block_size b)
    (hn : s.n = s.array.length)
    (hl : l ≤ r) (hr : r < s.array.length) :
    SRD.query s (.int l) (.int r) = .ok (scanMin s.array l r, s) := by
  have hb : (0 ≤ (l : ℤ) ∧ (l : ℤ) < (s.array.length : ℤ)) ∧
      (0 ≤ (r : ℤ) ∧ (r : ℤ) < (s.array.length : ℤ)) := by omega
  rw [SRD.query, if_pos hb, if_neg (by omega : ¬ ((l : ℤ) > (r : ℤ)))]
  simp only [Int.toNat_natCast]
  obtain ⟨p11, p12, p13, p14⟩ :=
    SRD.queryLoop1_spec s.array s.block_size (r - l) l r ⊤ (Nat.le_refl _) hl
  set x1 := (SRD.queryLoop1 s.array s.block_size (r - l) l r ⊤).1 with hx1
  obtain ⟨p21, p22, p23, p24⟩ := SRD.queryLoop2_spec s.array s.feed s.n s.block_size hbs hfeed
    (r - x1) x1 r (SRD.queryLoop1 s.array s.block_size (r - l) l r ⊤).2 (Nat.le_refl _) p12
    (by omega)
    (by rcases p13 with h | h
        · exact Or.inl h
        · exact Or.inr (by omega))
  set x2 := (SRD.queryLoop2 s.feed s.block_size (r - x1) x1 r
    (SRD.queryLoop1 s.array s.block_size (r - l) l r ⊤).2).1 with hx2
  rw [SRD.queryLoop3_spec s.array (r + 1 - x2) x2 r _ (Nat.le_refl _)]
  rw [p24, p14, min_top_left]
  congr 1
  congr 1
  rw [← inf_eq_min, ← Finset.inf_union, ← Finset.inf_union]
  rw [scanMin, ← Nat.Ico_succ_right]
  congr 1
  ext x
  simp only [Finset.mem_union, Finset.mem_Ico]
  omega

/-! ### State preservation: queries are read-only, validation errors carry
the untouched state -/

theorem Naive.query_state_naive {s : Naive.State} {l r : PyVal} {v : V} {s1 : Naive.State}
    (h : Naive.query s l r = .ok (v, s1)) : s1 = s := by
  unfold Naive.query at h
  split at h
  all_goals try split_ifs at h
  all_goals first
    | exact Except.noConfusion h
    | (injection h with h2; injection h2 with h3 h4; exact h4.symm)

theorem SRD.query_state_srd {s : SRD.State} {l r : PyVal} {v : V} {s1 : SRD.State}
    (h : SRD.query s l r = .ok (v, s1)) : s1 = s := by
  unfold SRD.query at h
  split at h
  all_goals try split_ifs at h
  all_goals first
    | exact Except.noConfusion h
    | (injection h with h2; injection h2 with h3 h4; exact h4.symm)

theorem SegmentTree.query_state_seg {s : SegmentTree.State} {l r : PyVal} {v : V}
    {s1 : SegmentTree.State} (h : SegmentTree.query s l r = .ok (v, s1)) : s1 = s := by
  unfold SegmentTree.query at h
  split at h
  all_goals try split_ifs at h
  all_goals first
    | exact Except.noConfusion h
    | (injection h with h2; injection h2 with h3 h4; exact h4.symm)

theorem SparseTable.query_state_sparse {s : SparseTable.State} {l r : PyVal} {v : V}
    {s1 : SparseTable.State} (h : SparseTable.query s l r = .ok (v, s1)) : s1 = s := by
  unfold SparseTable.query at h
  split at h
  all_goals try split_ifs at h
  all_goals first
    | exact Except.noConfusion h
    | (injection h with h2; injection h2 with h3 h4; exact h4.symm)

theorem Naive.update_errState_naive {s : Naive.State} {iv vv : PyVal} {e : Err} {s1 : Naive.State}
    (h : Naive.update s iv vv = .error (e, s1)) : s1 = s := by
  unfold Naive.update at h
  split at h
  all_goals try split at h
  all_goals try split_ifs at h
  all_goals first
    | exact Except.noConfusion h
    | (injection h with h2; injection h2 with h3 h4; exact h4.symm)

theorem SRD.update_errState_srd {s : SRD.State} {iv vv : PyVal} {e : Err} {s1 : SRD.State}
    (h : SRD.update s iv vv = .error (e, s1)) : s1 = s := by
  unfold SRD.update at h
  split at h
  all_goals try split at h
  all_goals try split_ifs at h
  all_goals first
    | exact Except.noConfusion h
    | (injection h with h2; injection h2 with h3 h4; exact h4.symm)

theorem SegmentTree.update_errState_seg {s : SegmentTree.State} {iv vv : PyVal} {e : Err}
    {s1 : SegmentTree.State} (h : SegmentTree.update s iv vv = .error (e, s1)) : s1 = s := by
  unfold SegmentTree.update at h
  split at h
  all_goals try split at h
  all_goals try split_ifs at h
  all_goals first
    | exact Except.noConfusion h
    | (injection h with h2; injection h2 with h3 h4; exact h4.symm)

theorem Naive.query_errState_naive {s : Naive.State} {lv rv : PyVal} {e : Err} {s1 : Naive.State}
    (h : Naive.query s lv rv = .error (e, s1)) : s1 = s := by
  unfold Naive.query at h
  split at h
  all_goals try split_ifs at h
  all_goals first
    | exact Except.noConfusion h
    | (injection h with h2; injection h2 with h3 h4; exact h4.symm)

theorem SRD.query_errState_srd {s : SRD.State} {lv rv : PyVal} {e : Err} {s1 : SRD.State}
    (h : SRD.query s lv rv = .error (e, s1)) : s1 = s := by
  unfold SRD.query at h
  split at h
  all_goals try split_ifs at h
  all_goals first
    | exact Except.noConfusion h
    | (injection h with h2; injection h2 with h3 h4; exact h4.symm)

theorem SegmentTree.query_errState_seg {s : SegmentTree.State} {lv rv : PyVal} {e : Err}
    {s1 : SegmentTree.State} (h : SegmentTree.query s lv rv = .error (e, s1)) : s1 = s := by
  unfold SegmentTree.query at h
  split at h
  all_goals try split_ifs at h
  all_goals first
    | exact Except.noConfusion h
    | (injection h with h2; injection h2 with h3 h4; exact h4.symm)

theorem SparseTable.query_errState_sparse {s : SparseTable.State} {lv rv : PyVal} {e : Err}
    {s1 : SparseTable.State} (h : SparseTable.query s lv rv = .error (e, s1)) : s1 = s := by
  unfold SparseTable.query at h
  split at h
  all_goals try split_ifs at h
  all_goals first
    | exact Except.noConfusion h
    | (injection h with h2; injection h2 with h3 h4; exact h4.symm)

/-! ### The shapes of successful calls -/

theorem Naive.update_ok_naive {s s1 : Naive.State} {i : ℤ} {v : V}
    (h : Naive.update s (.int i) (.float v) = .ok s1) :
    0 ≤ i ∧ i < (s.array.length : ℤ) ∧ s1 = ⟨s.array.set i.toNat v⟩ := by
  simp only [Naive.update] at h
  split_ifs at h with hc
  exact ⟨hc.1, hc.2, (Except.ok.inj h).symm⟩

theorem SRD.update_ok_srd {s s1 : SRD.State} {i : ℤ} {v : V}
    (h : SRD.update s (.int i) (.float v) = .ok s1) :
    0 ≤ i ∧ i < (s.array.length : ℤ) ∧
      s1 = ⟨s.array.set i.toNat v, s.n, s.block_size,
        s.feed.set (i.toNat / s.block_size)
          (min (s.feed.getD (i.toNat / s.block_size) ⊤) v)⟩ := by
  simp only [SRD.update] at h
  split_ifs at h with hc
  exact ⟨hc.1, hc.2, (Except.ok.inj h).symm⟩

theorem SegmentTree.update_ok_seg {s s1 : SegmentTree.State} {i : ℤ} {v : V}
    (h : SegmentTree.update s (.int i) (.float v) = .ok s1) :
    0 ≤ i ∧ i < (s.array.length : ℤ) ∧
      s1 = ⟨(SegmentTree.updateRec v i.toNat s.n s.array s.tree 0 0 (s.n - 1)).1, s.n,
        (SegmentTree.updateRec v i.toNat s.n s.array s.tree 0 0 (s.n - 1)).2⟩ := by
  simp only [SegmentTree.update] at h
  split_ifs at h with hc
  exact ⟨hc.1, hc.2, (Except.ok.inj h).symm⟩

theorem Naive.init_ok_naive {a : List V} {s : Naive.State} (h : Naive.init a = .ok s) :
    s = ⟨a⟩ ∧ a ≠ [] := by
  unfold Naive.init at h
  split_ifs at h with hc
  exact ⟨(Except.ok.inj h).symm, hc⟩

theorem SegmentTree.init_ok_seg {a : List V} {s : SegmentTree.State}
    (h : SegmentTree.init a = .ok s) :
    s = ⟨a, a.length, SegmentTree.constructRec a a.length (fun _ => ⊤) 0 0 (a.length - 1)⟩ ∧
      a ≠ [] := by
  unfold SegmentTree.init at h
  split_ifs at h with hc
  exact ⟨(Except.ok.inj h).symm, hc⟩

/-! ### Evaluation theorems for the observed defects -/

/-- C1: on the sequence `[1.0, 9.0, 9.0]`, after the valid call
`update(0, 9.0)` (which succeeds), the SRD `query(0, 2)` returns the stale
block minimum `1.0`, while the direct scan of the mutated sequence gives
`9.0`: SRD `query` does not return the minimum of the current sequence, so
the claim fails on the code (the fold-only feed refresh of `SRD.update` is
the defect). -/
theorem claim_C1_srd_stale_query :
    stepErr (SRD.update (initState (SRD.init [1, 9, 9]) ⟨[], 0, 0, []⟩)
      (.int 0) (.float 9)) = none ∧
    queryOut (SRD.query (stepState (SRD.update (initState (SRD.init [1, 9, 9]) ⟨[], 0, 0, []⟩)
      (.int 0) (.float 9)) ⟨[], 0, 0, []⟩) (.int 0) (.int 2)) = some 1 ∧
    scanMin (stepState (SRD.update (initState (SRD.init [1, 9, 9]) ⟨[], 0, 0, []⟩)
      (.int 0) (.float 9)) ⟨[], 0, 0, []⟩).array 0 2 = 9 ∧
    (1 : V) ≠ 9 := by decide

/-- C2: on the sequence `[1.0, 2.0]` (one block of size 2), after the valid
call `update(0, 5.0)` the feed slot of block 0 still holds `1.0`, while the
minimum of the sequence elements of block 0 is `2.0`: the feed invariant is
not preserved by `SRD.update`. -/
theorem claim_C2_srd_feed_stale :
    stepErr (SRD.update (initState (SRD.init [1, 2]) ⟨[], 0, 0, []⟩)
      (.int 0) (.float 5)) = none ∧
    (stepState (SRD.update (initState (SRD.init [1, 2]) ⟨[], 0, 0, []⟩)
      (.int 0) (.float 5)) ⟨[], 0, 0, []⟩).block_size = 2 ∧
    (stepState (SRD.update (initState (SRD.init [1, 2]) ⟨[], 0, 0, []⟩)
      (.int 0) (.float 5)) ⟨[], 0, 0, []⟩).n = 2 ∧
    (stepState (SRD.update (initState (SRD.init [1, 2]) ⟨[], 0, 0, []⟩)
      (.int 0) (.float 5)) ⟨[], 0, 0, []⟩).feed.getD 0 ⊤ = 1 ∧
    blockMin (stepState (SRD.update (initState (SRD.init [1, 2]) ⟨[], 0, 0, []⟩)
      (.int 0) (.float 5)) ⟨[], 0, 0, []⟩).array 2 2 0 = 2 ∧
    (1 : V) ≠ 2 := by decide

/-- C4: on the single-element sequence `[5.0]`, `Naive`, `SegmentTree` and
`SRD` construct, answer `query(0, 0)` with the element, and reject index 1
(and -1) with `IndexError`; but `SparseTable.__init__` itself raises
`IndexError` (it allocates `ceil(log2 1) = 0` levels and then writes level
0), so the claim fails on the code for the `SparseTable` strategy. -/
theorem claim_C4_sparse_crashes_on_singleton :
    SparseTable.init [(5 : V)] = .error .indexOOB ∧
    Naive.runQ [5] 0 0 = .ok 5 ∧
    SegmentTree.runQ [5] 0 0 = .ok 5 ∧
    SRD.runQ [5] 0 0 = .ok 5 ∧
    queryErr (Naive.query (initState (Naive.init [5]) ⟨[]⟩) (.int 1) (.int 1)) =
      some .indexOOB ∧
    stepErr (Naive.update (initState (Naive.init [5]) ⟨[]⟩) (.int 1) (.float 0)) =
      some .indexOOB ∧
    queryErr (Naive.query (initState (Naive.init [5]) ⟨[]⟩) (.int (-1)) (.int 0)) =
      some .indexOOB ∧
    queryErr (SRD.query (initState (SRD.init [5]) ⟨[], 0, 0, []⟩) (.int 1) (.int 1)) =
      some .indexOOB ∧
    stepErr (SRD.update (initState (SRD.init [5]) ⟨[], 0, 0, []⟩) (.int 1) (.float 0)) =
      some .indexOOB ∧
    queryErr (SegmentTree.query (initState (SegmentTree.init [5]) ⟨[], 0, fun _ => ⊤⟩)
      (.int 1) (.int 1)) = some .indexOOB ∧
    stepErr (SegmentTree.update (initState (SegmentTree.init [5]) ⟨[], 0, fun _ => ⊤⟩)
      (.int 1) (.float 0)) = some .indexOOB := by decide

/-- C5 counterexample: on the fixed sequence `[1.0, 2.0]` (length 2, an
exact power of two) the four strategies do not all construct: `SparseTable`
construction raises `IndexError`, so no `SparseTable.query` result exists,
while the other three strategies construct and agree.  The claim as stated
is therefore false at this input. -/
theorem claim_C5_counterexample :
    SparseTable.init [(1 : V), 2] = .error .indexOOB ∧
    SparseTable.runQ [1, 2] 0 1 = .error .indexOOB ∧
    Naive.runQ [1, 2] 0 1 = .ok 1 ∧
    SegmentTree.runQ [1, 2] 0 1 = .ok 1 ∧
    SRD.runQ [1, 2] 0 1 = .ok 1 := by decide

/-- C10: for every strategy, a successful `query(left, right)` call is
read-only: the returned state is exactly the input state, and immediately
repeating the same query returns the same value and state. -/
theorem claim_C10_query_readonly :
    (∀ (s : Naive.State) (l r : PyVal) (v : V) (s1 : Naive.State),
        Naive.query s l r = .ok (v, s1) → s1 = s ∧ Naive.query s1 l r = .ok (v, s1)) ∧
    (∀ (s : SRD.State) (l r : PyVal) (v : V) (s1 : SRD.State),
        SRD.query s l r = .ok (v, s1) → s1 = s ∧ SRD.query s1 l r = .ok (v, s1)) ∧
    (∀ (s : SegmentTree.State) (l r : PyVal) (v : V) (s1 : SegmentTree.State),
        SegmentTree.query s l r = .ok (v, s1) →
          s1 = s ∧ SegmentTree.query s1 l r = .ok (v, s1)) ∧
    (∀ (s : SparseTable.State) (l r : PyVal) (v : V) (s1 : SparseTable.State),
        SparseTable.query s l r = .ok (v, s1) →
          s1 = s ∧ SparseTable.query s1 l r = .ok (v, s1)) := by
  refine ⟨?_, ?_, ?_, ?_⟩
  · intro s l r v s1 h
    have e := Naive.query_state_naive h
    subst e
    exact ⟨rfl, h⟩
  · intro s l r v s1 h
    have e := SRD.query_state_srd h
    subst e
    exact ⟨rfl, h⟩
  · intro s l r v s1 h
    have e := SegmentTree.query_state_seg h
    subst e
    exact ⟨rfl, h⟩
  · intro s l r v s1 h
    have e := SparseTable.query_state_sparse h
    subst e
    exact ⟨rfl, h⟩

/-- Witness for C10: the four parts applied to concrete queries. -/
theorem claim_C10_query_readonly_witness :
    ((⟨[5, 3, 8]⟩ : Naive.State) = ⟨[5, 3, 8]⟩ ∧
      Naive.query ⟨[5, 3, 8]⟩ (.int 0) (.int 2) = .ok (3, ⟨[5, 3, 8]⟩)) ∧
    (initState (SRD.init [5, 3, 8]) ⟨[], 0, 0, []⟩ =
        initState (SRD.init [5, 3, 8]) ⟨[], 0, 0, []⟩ ∧
      SRD.query (initState (SRD.init [5, 3, 8]) ⟨[], 0, 0, []⟩) (.int 0) (.int 2) =
        .ok (3, initState (SRD.init [5, 3, 8]) ⟨[], 0, 0, []⟩)) ∧
    (initState (SegmentTree.init [5, 3, 8]) ⟨[], 0, fun _ => ⊤⟩ =
        initState (SegmentTree.init [5, 3, 8]) ⟨[], 0, fun _ => ⊤⟩ ∧
      SegmentTree.query (initState (SegmentTree.init [5, 3, 8]) ⟨[], 0, fun _ => ⊤⟩)
          (.int 0) (.int 2) =
        .ok (3, initState (SegmentTree.init [5, 3, 8]) ⟨[], 0, fun _ => ⊤⟩)) ∧
    (initState (SparseTable.init [5, 3, 8]) ⟨[], 0, [], []⟩ =
        initState (SparseTable.init [5, 3, 8]) ⟨[], 0, [], []⟩ ∧
      SparseTable.query (initState (SparseTable.init [5, 3, 8]) ⟨[], 0, [], []⟩)
          (.int 0) (.int 2) =
        .ok (3, initState (SparseTable.init [5, 3, 8]) ⟨[], 0, [], []⟩)) :=
  ⟨claim_C10_query_readonly.1 _ _ _ _ _ (by decide),
   claim_C10_query_readonly.2.1 _ _ _ _ _ (by decide),
   claim_C10_query_readonly.2.2.1 _ _ _ _ _ (by rfl),
   claim_C10_query_readonly.2.2.2 _ _ _ _ _ (by decide)⟩

/-! ### SegmentTree: the implicit tree indexing and the build invariant -/

/-- `desc k m`: node index `m` lies in the subtree rooted at node index `k`
under the `2*node+1 / 2*node+2` child convention; equivalently, `k + 1` is a
binary prefix of `m + 1`. -/
def desc (k m : ℕ) : Prop := ∃ j, (m + 1) / 2 ^ j = k + 1

theorem desc_refl (k : ℕ) : desc k k := ⟨0, by simp⟩

theorem desc_child_left {k m : ℕ} (h : desc k m) : desc k (2 * m + 1) := by
  obtain ⟨j, hj⟩ := h
  refine ⟨j + 1, ?_⟩
  have h2 : (2 : ℕ) ^ (j + 1) = 2 * 2 ^ j := by rw [pow_succ, Nat.mul_comm]
  rw [h2, ← Nat.div_div_eq_div_mul, (by omega : (2 * m + 1 + 1) / 2 = m + 1), hj]

theorem desc_child_right {k m : ℕ} (h : desc k m) : desc k (2 * m + 2) := by
  obtain ⟨j, hj⟩ := h
  refine ⟨j + 1, ?_⟩
  have h2 : (2 : ℕ) ^ (j + 1) = 2 * 2 ^ j := by rw [pow_succ, Nat.mul_comm]
  rw [h2, ← Nat.div_div_eq_div_mul, (by omega : (2 * m + 2 + 1) / 2 = m + 1), hj]

theorem desc_trans {k l m : ℕ} (h1 : desc k l) (h2 : desc l m) : desc k m := by
  obtain ⟨j1, hj1⟩ := h1
  obtain ⟨j2, hj2⟩ := h2
  exact ⟨j2 + j1, by rw [pow_add, ← Nat.div_div_eq_div_mul, hj2, hj1]⟩

theorem desc_ge {k m : ℕ} (h : desc k m) : k ≤ m := by
  obtain ⟨j, hj⟩ := h
  have := Nat.div_le_self (m + 1) (2 ^ j)
  omega

/-- The two subtrees hanging off a node are disjoint. -/
theorem desc_sibling_disjoint {p m : ℕ} (h1 : desc (2 * p + 1) m)
    (h2 : desc (2 * p + 2) m) : False := by
  obtain ⟨j1, hj1⟩ := h1
  obtain ⟨j2, hj2⟩ := h2
  have hstep : ∀ d x : ℕ, 1 ≤ d → x / 2 ^ d ≤ x / 2 := by
    intro d x hd
    exact Nat.div_le_div_left (by simpa using Nat.pow_le_pow_right (by omega : 1 ≤ 2) hd)
      (by omega)
  rcases Nat.le_total j1 j2 with hle | hle
  · have key : (m + 1) / 2 ^ j2 = ((m + 1) / 2 ^ j1) / 2 ^ (j2 - j1) := by
      rw [Nat.div_div_eq_div_mul, ← pow_add]
      congr 2
      omega
    rw [hj1, hj2] at key
    rcases Nat.eq_zero_or_pos (j2 - j1) with h0 | h0
    · rw [h0, pow_zero, Nat.div_one] at key; omega
    · have hb := hstep (j2 - j1) (2 * p + 2) h0
      rw [← key] at hb
      omega
  · have key : (m + 1) / 2 ^ j1 = ((m + 1) / 2 ^ j2) / 2 ^ (j1 - j2) := by
      rw [Nat.div_div_eq_div_mul, ← pow_add]
      congr 2
      omega
    rw [hj1, hj2] at key
    rcases Nat.eq_zero_or_pos (j1 - j2) with h0 | h0
    · rw [h0, pow_zero, Nat.div_one] at key; omega
    · have hb := hstep (j1 - j2) (2 * p + 3) h0
      rw [← key] at hb
      omega

/-- The invariant of the claim C6 for the subtree rooted at `node` over
`[start, en]`: every leaf stores the corresponding sequence element, and
every internal node visited by the build recursion stores the minimum of its
two children.  The fuel mirrors the recursion depth bound of the code. -/
def SegInv (a : List V) (t : ℕ → V) : ℕ → ℕ → ℕ → ℕ → Prop
  | 0, _, _, _ => True
  | fuel + 1, node, start, en =>
    if start = en then t node = elem a start
    else t node = min (t (2 * node + 1)) (t (2 * node + 2)) ∧
      SegInv a t fuel (2 * node + 1) start ((start + en) / 2) ∧
      SegInv a t fuel (2 * node + 2) ((start + en) / 2 + 1) en

instance SegInvDec (a : List V) (t : ℕ → V) :
    ∀ fuel node start en, Decidable (SegInv a t fuel node start en)
  | 0, _, _, _ => .isTrue trivial
  | fuel + 1, node, start, en => by
    haveI := SegInvDec a t fuel (2 * node + 1) start ((start + en) / 2)
    haveI := SegInvDec a t fuel (2 * node + 2) ((start + en) / 2 + 1) en
    unfold SegInv
    infer_instance

/-- The invariant does not depend on the particular fuel, as long as the
fuel exceeds the interval length. -/
theorem SegInv_fuel {a : List V} {t : ℕ → V} :
    ∀ fuel1 fuel2 node start en, start ≤ en → en - start < fuel1 → en - start < fuel2 →
      (SegInv a t fuel1 node start en ↔ SegInv a t fuel2 node start en) := by
  intro fuel1
  induction fuel1 with
  | zero => intro fuel2 node start en _ h1; omega
  | succ fuel1 ih =>
    intro fuel2 node start en hse h1 h2
    cases fuel2 with
    | zero => omega
    | succ fuel2 =>
      rw [SegInv, SegInv]
      by_cases he : start = en
      · rw [if_pos he, if_pos he]
      · rw [if_neg he, if_neg he]
        constructor
        · rintro ⟨hn, hL, hR⟩
          exact ⟨hn, (ih fuel2 _ _ _ (by omega) (by omega) (by omega)).mp hL,
            (ih fuel2 _ _ _ (by omega) (by omega) (by omega)).mp hR⟩
        · rintro ⟨hn, hL, hR⟩
          exact ⟨hn, (ih fuel2 _ _ _ (by omega) (by omega) (by omega)).mpr hL,
            (ih fuel2 _ _ _ (by omega) (by omega) (by omega)).mpr hR⟩

/-- The invariant only reads the tree at descendants of `node`. -/
theorem SegInv_congr_tree {a : List V} {t u : ℕ → V} :
    ∀ fuel node start en, (∀ m, desc node m → t m = u m) →
      (SegInv a t fuel node start en ↔ SegInv a u fuel node start en) := by
  intro fuel
  induction fuel with
  | zero => intro node start en _; exact Iff.rfl
  | succ fuel ih =>
    intro node start en h
    have hn := h node (desc_refl node)
    have hc1 := h (2 * node + 1) (desc_child_left (desc_refl node))
    have hc2 := h (2 * node + 2) (desc_child_right (desc_refl node))
    have hL := ih (2 * node + 1) start ((start + en) / 2)
      (fun m hm => h m (desc_trans (desc_child_left (desc_refl node)) hm))
    have hR := ih (2 * node + 2) ((start + en) / 2 + 1) en
      (fun m hm => h m (desc_trans (desc_child_right (desc_refl node)) hm))
    rw [SegInv, SegInv]
    by_cases he : start = en
    · rw [if_pos he, if_pos he, hn]
    · rw [if_neg he, if_neg he, hn, hc1, hc2]
      exact and_congr Iff.rfl (and_congr hL hR)

/-- The invariant only reads the array inside `[start, en]`. -/
theorem SegInv_congr_array {a b : List V} {t : ℕ → V} :
    ∀ fuel node start en, (∀ i, start ≤ i → i ≤ en → elem a i = elem b i) →
      (SegInv a t fuel node start en ↔ SegInv b t fuel node start en) := by
  intro fuel
  induction fuel with
  | zero => intro node start en _; exact Iff.rfl
  | succ fuel ih =>
    intro node start en h
    rw [SegInv, SegInv]
    by_cases he : start = en
    · rw [if_pos he, if_pos he, h start (Nat.le_refl _) (by omega)]
    · rw [if_neg he, if_neg he]
      by_cases hse : start ≤ en
      · have hL := ih (2 * node + 1) start ((start + en) / 2)
          (fun i h1 h2 => h i h1 (by omega))
        have hR := ih (2 * node + 2) ((start + en) / 2 + 1) en
          (fun i h1 h2 => h i (by omega) h2)
        exact and_congr Iff.rfl (and_congr hL hR)
      · have hL := ih (2 * node + 1) start ((start + en) / 2)
          (fun i h1 h2 => h i h1 (by omega))
        have hR := ih (2 * node + 2) ((start + en) / 2 + 1) en
          (fun i h1 h2 => h i (by omega) h2)
        exact and_congr Iff.rfl (and_congr hL hR)

/-- Under the invariant, each visited node stores the minimum of its
interval. -/
theorem SegInv_node_eq_scanMin {a : List V} {t : ℕ → V} :
    ∀ fuel node start en, start ≤ en → en - start < fuel →
      SegInv a t fuel node start en → t node = scanMin a start en := by
  intro fuel
  induction fuel with
  | zero => intro node start en _ h1; omega
  | succ fuel ih =>
    intro node start en hse h1 h
    rw [SegInv] at h
    by_cases he : start = en
    · rw [if_pos he] at h
      subst he
      rw [h, scanMin_singleton]
    · rw [if_neg he] at h
      obtain ⟨hn, hL, hR⟩ := h
      rw [hn, ih _ _ _ (by omega) (by omega) hL, ih _ _ _ (by omega) (by omega) hR,
        ← scanMin_split (by omega) (by omega)]

/-- The build recursion writes only nodes inside the subtree of `node`. -/
theorem SegmentTree.constructRec_frame (a : List V) :
    ∀ fuel t node start en m, ¬ desc node m →
      SegmentTree.constructRec a fuel t node start en m = t m := by
  intro fuel
  induction fuel with
  | zero => intro t node start en m _; rfl
  | succ fuel ih =>
    intro t node start en m hm
    have hne : m ≠ node := fun h => hm (h ▸ desc_refl node)
    rw [SegmentTree.constructRec]
    by_cases he : start = en
    · rw [if_pos he, Function.update_noteq hne]
    · rw [if_neg he]
      rw [Function.update_noteq hne,
        ih _ _ _ _ m (fun h => hm (desc_trans (desc_child_right (desc_refl node)) h)),
        ih _ _ _ _ m (fun h => hm (desc_trans (desc_child_left (desc_refl node)) h))]

/-- The build recursion establishes the invariant on its subtree. -/
theorem SegmentTree.constructRec_SegInv (a : List V) :
    ∀ fuel t node start en, start ≤ en → en - start < fuel →
      SegInv a (SegmentTree.constructRec a fuel t node start en) fuel node start en := by
  intro fuel
  induction fuel with
  | zero => intro t node start en _ h1; omega
  | succ fuel ih =>
    intro t node start en hse h1
    rw [SegmentTree.constructRec, SegInv]
    by_cases he : start = en
    · rw [if_pos he, if_pos he, Function.update_same]
    · rw [if_neg he, if_neg he]
      have hnode1 : node < 2 * node + 1 := by omega
      have hnode2 : node < 2 * node + 2 := by omega
      have hmid1 : start ≤ (start + en) / 2 := by omega
      have hmid2 : (start + en) / 2 < en := by omega
      have hfL : (start + en) / 2 - start < fuel := by omega
      have hfR : en - ((start + en) / 2 + 1) < fuel := by omega
      refine ⟨?_, ?_, ?_⟩
      · rw [Function.update_same,
          Function.update_noteq (by omega : 2 * node + 1 ≠ node),
          Function.update_noteq (by omega : 2 * node + 2 ≠ node)]
      · have hIH := ih t (2 * node + 1) start ((start + en) / 2) hmid1 hfL
        refine (SegInv_congr_tree fuel (2 * node + 1) start ((start + en) / 2) ?_).mp hIH
        intro m hm
        have hm_ne : m ≠ node := by
          have := desc_ge hm
          omega
        rw [Function.update_noteq hm_ne,
          SegmentTree.constructRec_frame a fuel _ (2 * node + 2) ((start + en) / 2 + 1) en m
            (fun h => desc_sibling_disjoint hm h)]
      · have hIH := ih (SegmentTree.constructRec a fuel t (2 * node + 1) start ((start + en) / 2))
          (2 * node + 2) ((start + en) / 2 + 1) en (by omega) hfR
        refine (SegInv_congr_tree fuel (2 * node + 2) ((start + en) / 2 + 1) en ?_).mp hIH
        intro m hm
        have hm_ne : m ≠ node := by
          have := desc_ge hm
          omega
        rw [Function.update_noteq hm_ne]

/-- The update recursion writes only nodes inside the subtree of `node`. -/
theorem SegmentTree.updateRec_frame (v : V) (index : ℕ) :
    ∀ fuel a t node start en m, ¬ desc node m →
      (SegmentTree.updateRec v index fuel a t node start en).2 m = t m := by
  intro fuel
  induction fuel with
  | zero => intro a t node start en m _; rfl
  | succ fuel ih =>
    intro a t node start en m hm
    have hne : m ≠ node := fun h => hm (h ▸ desc_refl node)
    rw [SegmentTree.updateRec]
    by_cases he : start = en
    · rw [if_pos he]
      exact Function.update_noteq hne _ _
    · rw [if_neg he]
      by_cases hi : index ≤ (start + en) / 2
      · rw [if_pos hi]
        simp only []
        rw [Function.update_noteq hne,
          ih _ _ _ _ _ m (fun h => hm (desc_trans (desc_child_left (desc_refl node)) h))]
      · rw [if_neg hi]
        simp only []
        rw [Function.update_noteq hne,
          ih _ _ _ _ _ m (fun h => hm (desc_trans (desc_child_right (desc_refl node)) h))]

/-- The update recursion performs exactly the assignment
`array[index] = v` on the sequence. -/
theorem SegmentTree.updateRec_array (v : V) (index : ℕ) :
    ∀ fuel a t node start en, start ≤ en → en - start < fuel →
      (SegmentTree.updateRec v index fuel a t node start en).1 = a.set index v := by
  intro fuel
  induction fuel with
  | zero => intro a t node start en _ h1; omega
  | succ fuel ih =>
    intro a t node start en hse h1
    rw [SegmentTree.updateRec]
    by_cases he : start = en
    · rw [if_pos he]
    · rw [if_neg he]
      by_cases hi : index ≤ (start + en) / 2
      · rw [if_pos hi]
        simp only []
        exact ih a t (2 * node + 1) start ((start + en) / 2) (by omega) (by omega)
      · rw [if_neg hi]
        simp only []
        exact ih a t (2 * node + 2) ((start + en) / 2 + 1) en (by omega) (by omega)

/-- The update recursion repairs the invariant for the updated array. -/
theorem SegmentTree.updateRec_SegInv (v : V) (index : ℕ) :
    ∀ fuel a t node start en, start ≤ en → en - start < fuel →
      start ≤ index → index ≤ en → index < a.length →
      SegInv a t fuel node start en →
      SegInv (a.set index v) (SegmentTree.updateRec v index fuel a t node start en).2
        fuel node start en := by
  intro fuel
  induction fuel with
  | zero => intro a t node start en _ h1; omega
  | succ fuel ih =>
    intro a t node start en hse h1 hi1 hi2 hlen h
    rw [SegInv] at h
    rw [SegmentTree.updateRec, SegInv]
    by_cases he : start = en
    · rw [if_pos he] at h ⊢
      rw [if_pos he]
      simp only []
      rw [Function.update_same]
      have : index = start := by omega
      subst this
      exact (elem_set_self v hlen).symm
    · rw [if_neg he] at h
      obtain ⟨hn, hL, hR⟩ := h
      have hnode1 : node < 2 * node + 1 := by omega
      rw [if_neg he]
      by_cases hi : index ≤ (start + en) / 2
      · rw [if_pos hi, if_neg he]
        simp only []
        refine ⟨?_, ?_, ?_⟩
        · rw [Function.update_same,
            Function.update_noteq (by omega : 2 * node + 1 ≠ node),
            Function.update_noteq (by omega : 2 * node + 2 ≠ node)]
        · have hIH := ih a t (2 * node + 1) start ((start + en) / 2) (by omega) (by omega)
            hi1 hi hlen hL
          refine (SegInv_congr_tree fuel (2 * node + 1) start ((start + en) / 2) ?_).mp hIH
          intro m hm
          have hne : m ≠ node := by
            have h9 := desc_ge hm
            omega
          exact (Function.update_noteq hne _ _).symm
        · have htree : ∀ m, desc (2 * node + 2) m →
              Function.update (SegmentTree.updateRec v index fuel a t (2 * node + 1) start
                ((start + en) / 2)).2 node
                (min ((SegmentTree.updateRec v index fuel a t (2 * node + 1) start
                  ((start + en) / 2)).2 (2 * node + 1))
                  ((SegmentTree.updateRec v index fuel a t (2 * node + 1) start
                    ((start + en) / 2)).2 (2 * node + 2))) m = t m := by
            intro m hm
            rw [Function.update_noteq (by have := desc_ge hm; omega),
              SegmentTree.updateRec_frame v index fuel a t (2 * node + 1) start
                ((start + en) / 2) m (fun h => desc_sibling_disjoint h hm)]
          have harr : ∀ i, (start + en) / 2 + 1 ≤ i → i ≤ en →
              elem (a.set index v) i = elem a i := by
            intro i ha1 ha2
            exact elem_set_ne v (by omega)
          exact (SegInv_congr_tree fuel _ _ _ htree).mpr
            ((SegInv_congr_array fuel _ _ _ harr).mpr hR)
      · rw [if_neg hi, if_neg he]
        simp only []
        refine ⟨?_, ?_, ?_⟩
        · rw [Function.update_same,
            Function.update_noteq (by omega : 2 * node + 1 ≠ node),
            Function.update_noteq (by omega : 2 * node + 2 ≠ node)]
        · have htree : ∀ m, desc (2 * node + 1) m →
              Function.update (SegmentTree.updateRec v index fuel a t (2 * node + 2)
                ((start + en) / 2 + 1) en).2 node
                (min ((SegmentTree.updateRec v index fuel a t (2 * node + 2)
                  ((start + en) / 2 + 1) en).2 (2 * node + 1))
                  ((SegmentTree.updateRec v index fuel a t (2 * node + 2)
                    ((start + en) / 2 + 1) en).2 (2 * node + 2))) m = t m := by
            intro m hm
            rw [Function.update_noteq (by have := desc_ge hm; omega),
              SegmentTree.updateRec_frame v index fuel a t (2 * node + 2)
                ((start + en) / 2 + 1) en m (fun h => desc_sibling_disjoint hm h)]
          have harr : ∀ i, start ≤ i → i ≤ (start + en) / 2 →
              elem (a.set index v) i = elem a i := by
            intro i ha1 ha2
            exact elem_set_ne v (by omega)
          exact (SegInv_congr_tree fuel _ _ _ htree).mpr
            ((SegInv_congr_array fuel _ _ _ harr).mpr hL)
        · have hIH := ih a t (2 * node + 2) ((start + en) / 2 + 1) en (by omega) (by omega)
            (by omega) hi2 hlen hR
          refine (SegInv_congr_tree fuel (2 * node + 2) ((start + en) / 2 + 1) en ?_).mp hIH
          intro m hm
          have hne : m ≠ node := by
            have h9 := desc_ge hm
            omega
          exact (Function.update_noteq hne _ _).symm

/-- Under the invariant, the query recursion returns the minimum over the
intersection of the node's interval with the query range. -/
theorem SegmentTree.queryRec_eq {a : List V} {t : ℕ → V} :
    ∀ fuel node start en l r, start ≤ en → en - start < fuel →
      SegInv a t fuel node start en →
      SegmentTree.queryRec t fuel node start en l r =
        (Finset.Icc start en ∩ Finset.Icc l r).inf (elem a) := by
  intro fuel
  induction fuel with
  | zero => intro node start en l r _ h1; omega
  | succ fuel ih =>
    intro node start en l r hse h1 h
    rw [SegmentTree.queryRec]
    by_cases hd : r < start ∨ en < l
    · rw [if_pos hd,
        show Finset.Icc start en ∩ Finset.Icc l r = ∅ from by
          ext x
          simp only [Finset.mem_inter, Finset.mem_Icc, Finset.not_mem_empty, iff_false]
          omega,
        Finset.inf_empty]
    · rw [if_neg hd]
      push_neg at hd
      by_cases hc : l ≤ start ∧ en ≤ r
      · rw [if_pos hc, SegInv_node_eq_scanMin (fuel + 1) node start en hse h1 h, scanMin]
        congr 1
        ext x
        simp only [Finset.mem_inter, Finset.mem_Icc]
        omega
      · rw [if_neg hc]
        push_neg at hc
        have hlt : start < en := by
          by_cases hls : l ≤ start
          · have := hc hls
            omega
          · omega
        rw [SegInv, if_neg (by omega : ¬ start = en)] at h
        obtain ⟨hn, hL, hR⟩ := h
        simp only []
        rw [ih _ _ _ l r (by omega) (by omega) hL, ih _ _ _ l r (by omega) (by omega) hR,
          ← inf_eq_min, ← Finset.inf_union]
        congr 1
        ext x
        simp only [Finset.mem_inter, Finset.mem_union, Finset.mem_Icc]
        omega

/-- Well-formedness of a `SegmentTree` state: the cached length is the array
length, the array is non-empty, and the tree satisfies the build invariant
over the root range `[0, n-1]`. -/
def SegWF (s : SegmentTree.State) : Prop :=
  s.array.length = s.n ∧ 0 < s.n ∧ SegInv s.array s.tree s.n 0 0 (s.n - 1)

instance (s : SegmentTree.State) : Decidable (SegWF s) := by
  unfold SegWF
  infer_instance

/-- Construction establishes well-formedness. -/
theorem SegmentTree.init_SegWF {a : List V} {s : SegmentTree.State}
    (h : SegmentTree.init a = .ok s) : SegWF s := by
  obtain ⟨rfl, hne⟩ := SegmentTree.init_ok_seg h
  have hlen : 0 < a.length := List.length_pos.mpr hne
  exact ⟨rfl, hlen,
    SegmentTree.constructRec_SegInv a a.length (fun _ => ⊤) 0 0 (a.length - 1)
      (by omega) (by omega)⟩

/-- A successful update preserves well-formedness and performs exactly the
expected array assignment. -/
theorem SegmentTree.update_SegWF {s s1 : SegmentTree.State} {i : ℤ} {v : V}
    (hwf : SegWF s) (h : SegmentTree.update s (.int i) (.float v) = .ok s1) :
    SegWF s1 ∧ s1.array = s.array.set i.toNat v ∧ s1.n = s.n := by
  obtain ⟨h0, hlt, rfl⟩ := SegmentTree.update_ok_seg h
  obtain ⟨hlen, hn, hinv⟩ := hwf
  have hidx : i.toNat < s.array.length := by omega
  have harr := SegmentTree.updateRec_array v i.toNat s.n s.array s.tree 0 0 (s.n - 1)
    (by omega) (by omega)
  refine ⟨⟨?_, hn, ?_⟩, harr, rfl⟩
  · rw [harr, List.length_set]
    exact hlen
  · have hinv1 := SegmentTree.updateRec_SegInv v i.toNat s.n s.array s.tree 0 0 (s.n - 1)
      (by omega) (by omega) (by omega) (by omega) hidx hinv
    show SegInv ((SegmentTree.updateRec v i.toNat s.n s.array s.tree 0 0 (s.n - 1)).1)
      ((SegmentTree.updateRec v i.toNat s.n s.array s.tree 0 0 (s.n - 1)).2) s.n 0 0 (s.n - 1)
    rw [harr]
    exact hinv1

/-- Under well-formedness, `SegmentTree.query` on a valid range returns
exactly the scan minimum. -/
theorem SegmentTree.query_eq_scanMin_seg {s : SegmentTree.State} {l r : ℕ}
    (hwf : SegWF s) (hl : l ≤ r) (hr : r < s.array.length) :
    SegmentTree.query s (.int l) (.int r) = .ok (scanMin s.array l r, s) := by
  obtain ⟨hlen, hn, hinv⟩ := hwf
  have hb : (0 ≤ (l : ℤ) ∧ (l : ℤ) < (s.array.length : ℤ)) ∧
      (0 ≤ (r : ℤ) ∧ (r : ℤ) < (s.array.length : ℤ)) := by omega
  rw [SegmentTree.query, if_pos hb, if_neg (by omega : ¬ ((l : ℤ) > (r : ℤ)))]
  simp only [Int.toNat_natCast]
  rw [SegmentTree.queryRec_eq s.n 0 0 (s.n - 1) l r (by omega) (by omega) hinv,
    show Finset.Icc 0 (s.n - 1) ∩ Finset.Icc l r = Finset.Icc l r from by
      ext x
      simp only [Finset.mem_inter, Finset.mem_Icc]
      omega]
  rfl

/-- C6: in `SegmentTree`, construction establishes and every valid update
preserves the invariant that each leaf visited by the build recursion stores
the corresponding sequence element and each internal visited node stores the
minimum of its two children (`SegInv` over the root range). -/
theorem claim_C6_segment_tree_invariant :
    (∀ (a : List V) (s : SegmentTree.State), SegmentTree.init a = .ok s →
        SegInv s.array s.tree s.n 0 0 (s.n - 1)) ∧
    (∀ (s s1 : SegmentTree.State) (i : ℤ) (v : V),
        SegWF s → SegmentTree.update s (.int i) (.float v) = .ok s1 →
        SegInv s1.array s1.tree s1.n 0 0 (s1.n - 1)) := by
  constructor
  · intro a s h
    exact (SegmentTree.init_SegWF h).2.2
  · intro s s1 i v hwf h
    exact (SegmentTree.update_SegWF hwf h).1.2.2

/-- Witness for C6: construction from `[5, 3, 8, 2, 7]` and the update
`update(1, 9.0)` on the constructed state. -/
theorem claim_C6_segment_tree_invariant_witness :
    SegInv (initState (SegmentTree.init [5, 3, 8, 2, 7]) ⟨[], 0, fun _ => ⊤⟩).array
      (initState (SegmentTree.init [5, 3, 8, 2, 7]) ⟨[], 0, fun _ => ⊤⟩).tree
      (initState (SegmentTree.init [5, 3, 8, 2, 7]) ⟨[], 0, fun _ => ⊤⟩).n 0 0
      ((initState (SegmentTree.init [5, 3, 8, 2, 7]) ⟨[], 0, fun _ => ⊤⟩).n - 1) ∧
    SegInv (stepState (SegmentTree.update
        (initState (SegmentTree.init [5, 3, 8, 2, 7]) ⟨[], 0, fun _ => ⊤⟩)
        (.int 1) (.float 9)) ⟨[], 0, fun _ => ⊤⟩).array
      (stepState (SegmentTree.update
        (initState (SegmentTree.init [5, 3, 8, 2, 7]) ⟨[], 0, fun _ => ⊤⟩)
        (.int 1) (.float 9)) ⟨[], 0, fun _ => ⊤⟩).tree
      (stepState (SegmentTree.update
        (initState (SegmentTree.init [5, 3, 8, 2, 7]) ⟨[], 0, fun _ => ⊤⟩)
        (.int 1) (.float 9)) ⟨[], 0, fun _ => ⊤⟩).n 0 0
      ((stepState (SegmentTree.update
        (initState (SegmentTree.init [5, 3, 8, 2, 7]) ⟨[], 0, fun _ => ⊤⟩)
        (.int 1) (.float 9)) ⟨[], 0, fun _ => ⊤⟩).n - 1) :=
  ⟨claim_C6_segment_tree_invariant.1 [5, 3, 8, 2, 7] _ rfl,
   claim_C6_segment_tree_invariant.2
     (initState (SegmentTree.init [5, 3, 8, 2, 7]) ⟨[], 0, fun _ => ⊤⟩) _ 1 9 (by decide) rfl⟩

/-! ### SparseTable: allocation, build loops and their characterisation -/

theorem ceilLog2Aux_spec (n : ℕ) :
    ∀ fuel j, n ≤ 2 ^ (j + fuel) →
      n ≤ 2 ^ ceilLog2Aux n fuel j ∧ j ≤ ceilLog2Aux n fuel j ∧
        ∀ q, j ≤ q → n ≤ 2 ^ q → ceilLog2Aux n fuel j ≤ q := by
  intro fuel
  induction fuel with
  | zero =>
    intro j h
    rw [Nat.add_zero] at h
    exact ⟨h, Nat.le_refl _, fun q hq _ => hq⟩
  | succ fuel ih =>
    intro j h
    rw [ceilLog2Aux]
    by_cases hc : n ≤ 2 ^ j
    · rw [if_pos hc]
      exact ⟨hc, Nat.le_refl _, fun q hq _ => hq⟩
    · rw [if_neg hc]
      obtain ⟨h1, h2, h3⟩ := ih (j + 1) (by rw [show j + 1 + fuel = j + (fuel + 1) from by omega]; exact h)
      refine ⟨h1, by omega, ?_⟩
      intro q hq hnq
      have : j + 1 ≤ q := by
        rcases Nat.eq_or_lt_of_le hq with rfl | hlt
        · exact absurd hnq hc
        · omega
      exact h3 q this hnq

/-- `ceilLog2 n` is the least `j` with `n ≤ 2 ^ j`. -/
theorem ceilLog2_spec (n : ℕ) :
    n ≤ 2 ^ ceilLog2 n ∧ ∀ q, n ≤ 2 ^ q → ceilLog2 n ≤ q := by
  have h := ceilLog2Aux_spec n (n + 1) 0
    (by rw [Nat.zero_add]; exact le_trans (Nat.lt_two_pow n).le (Nat.pow_le_pow_right (by omega) (by omega)))
  exact ⟨h.1, fun q hq => h.2.2 q (Nat.zero_le q) hq⟩

theorem ceilLog2_one : ceilLog2 1 = 0 :=
  Nat.le_zero.mp ((ceilLog2_spec 1).2 0 (by omega))

theorem ceilLog2_pow {m : ℕ} : ceilLog2 (2 ^ m) = m := by
  obtain ⟨h1, h2⟩ := ceilLog2_spec (2 ^ m)
  have hle := h2 m (Nat.le_refl _)
  have hge : m ≤ ceilLog2 (2 ^ m) :=
    (Nat.pow_le_pow_iff_right (by omega : 1 < 2)).mp h1
  omega

theorem ceilLog2_pos {n : ℕ} (h : 2 ≤ n) : 0 < ceilLog2 n := by
  rcases Nat.eq_zero_or_pos (ceilLog2 n) with h0 | h0
  · have := (ceilLog2_spec n).1
    rw [h0, pow_zero] at this
    omega
  · exact h0

/-- For a non-power-of-two length, every level the build loop visits fits in
the allocated `ceilLog2 n` levels. -/
theorem ceilLog2_level_lt {n q : ℕ} (hn : 0 < n) (hp : ¬ isPow2 n)
    (hq1 : 1 ≤ q) (hq : 2 ^ q ≤ n) : q < ceilLog2 n := by
  by_contra hq2
  push_neg at hq2
  have h1 := (ceilLog2_spec n).1
  have h2 : (2 : ℕ) ^ ceilLog2 n ≤ 2 ^ q := Nat.pow_le_pow_right (by omega) hq2
  have heq : n = 2 ^ q := by omega
  exact hp ⟨q, lt_of_lt_of_le (Nat.lt_two_pow q) (by omega), heq⟩

theorem nonpow2_two_le {n : ℕ} (hn : 0 < n) (hp : ¬ isPow2 n) : 2 ≤ n := by
  by_contra hc
  push_neg at hc
  have hn1 : n = 1 := by omega
  subst hn1
  exact hp ⟨0, by omega, rfl⟩

/-- Shape of the sparse table: `n` rows, each of length `k`. -/
def Shape (st : List (List V)) (n k : ℕ) : Prop :=
  st.length = n ∧ ∀ row ∈ st, row.length = k

instance (st : List (List V)) (n k : ℕ) : Decidable (Shape st n k) := by
  unfold Shape
  infer_instance

theorem getD_eq_getElem {α : Type} {l : List α} {i : ℕ} (h : i < l.length) (d : α) :
    l.getD i d = l[i] := by
  rw [List.getD_eq_getElem?_getD, List.getElem?_eq_getElem h]
  rfl

theorem Shape_rowlen {st : List (List V)} {n k : ℕ} (h : Shape st n k) {i : ℕ} (hi : i < n) :
    (st.getD i []).length = k := by
  have hlen : i < st.length := by rw [h.1]; exact hi
  rw [getD_eq_getElem hlen]
  exact h.2 _ (List.getElem_mem hlen)

namespace SparseTable

theorem setST_some {st : List (List V)} {n k i j : ℕ} (v : V) (h : Shape st n k)
    (hi : i < n) (hj : j < k) :
    setST st i j v = some (st.set i ((st.getD i []).set j v)) := by
  rw [setST, if_pos ⟨by rw [h.1]; exact hi, by rw [Shape_rowlen h hi]; exact hj⟩]

theorem setST_none {st : List (List V)} {n k i j : ℕ} (v : V) (h : Shape st n k)
    (hi : i < n) (hj : ¬ j < k) :
    setST st i j v = none := by
  rw [setST, if_neg]
  rw [Shape_rowlen h hi]
  intro hc
  exact hj hc.2

theorem setST_shape {st : List (List V)} {n k : ℕ} (i j : ℕ) (v : V) (h : Shape st n k) :
    Shape (st.set i ((st.getD i []).set j v)) n k := by
  by_cases hi : i < st.length
  · refine ⟨by rw [List.length_set]; exact h.1, ?_⟩
    intro row hrow
    rcases List.mem_or_eq_of_mem_set hrow with hmem | heq
    · exact h.2 row hmem
    · subst heq
      rw [List.length_set, getD_eq_getElem hi]
      exact h.2 _ (List.getElem_mem hi)
  · rw [List.set_eq_of_length_le (by omega)]
    exact h

theorem getST_set_self {st : List (List V)} {n k i j : ℕ} (v : V) (h : Shape st n k)
    (hi : i < n) (hj : j < k) :
    getST (st.set i ((st.getD i []).set j v)) i j = v := by
  have hil : i < st.length := by rw [h.1]; exact hi
  rw [getST, getD_set_self _ hil, getD_set_self]
  rw [Shape_rowlen h hi]
  exact hj

theorem getST_set_ne {st : List (List V)} {i j p q : ℕ} (v : V)
    (hne : ¬ (i = p ∧ j = q)) :
    getST (st.set i ((st.getD i []).set j v)) p q = getST st p q := by
  by_cases hip : i = p
  · subst hip
    have hjq : j ≠ q := fun h => hne ⟨rfl, h⟩
    by_cases hil : i < st.length
    · rw [getST, getD_set_self _ hil, getD_set_ne _ hjq, getST]
    · rw [List.set_eq_of_length_le (by omega)]
  · rw [getST, getD_set_ne _ hip, getST]

end SparseTable

/-- Cell `(p, q)` of the sparse table holds the minimum of the length-`2^q`
range starting at `p` (`st[p][q] = min(a[p..p+2^q-1])`). -/
def cellOK (a : List V) (st : List (List V)) (p q : ℕ) : Prop :=
  SparseTable.getST st p q = (Finset.Ico p (p + 2 ^ q)).inf (elem a)

namespace SparseTable

/-- The level-0 loop writes `st[p][0] = a[p]` for the `fuel` rows starting
at `i`, succeeds whenever at least one column is allocated, and touches
nothing else. -/
theorem buildLevel0_ok {a : List V} {n k : ℕ} (hk : 0 < k) :
    ∀ fuel st i, Shape st n k → i + fuel ≤ n →
      ∃ st1, buildLevel0 a fuel st i = .ok st1 ∧ Shape st1 n k ∧
        (∀ p, i ≤ p → p < i + fuel → getST st1 p 0 = elem a p) ∧
        (∀ p q, ¬ (i ≤ p ∧ p < i + fuel ∧ q = 0) → getST st1 p q = getST st p q) := by
  intro fuel
  induction fuel with
  | zero =>
    intro st i hsh _
    exact ⟨st, rfl, hsh, fun p h1 h2 => absurd h2 (by omega), fun p q _ => rfl⟩
  | succ fuel ih =>
    intro st i hsh hin
    rw [buildLevel0, setST_some (elem a i) hsh (by omega) hk]
    obtain ⟨st1, hok, hsh1, hw, hf⟩ := ih (st.set i ((st.getD i []).set 0 (elem a i))) (i + 1)
      (setST_shape i 0 _ hsh) (by omega)
    refine ⟨st1, hok, hsh1, ?_, ?_⟩
    · intro p hp1 hp2
      rcases Nat.eq_or_lt_of_le hp1 with rfl | hlt
      · rw [hf i 0 (by omega), getST_set_self _ hsh (by omega) hk]
      · exact hw p (by omega) (by omega)
    · intro p q hpq
      rw [hf p q (by omega), getST_set_ne _ (by omega)]

/-- The level-`j` inner loop (`1 ≤ j < k`) writes
`st[p][j] = min(st[p][j-1], st[p+2^(j-1)][j-1])` for every `p ≥ i` whose
range fits, succeeds, and touches nothing else.  (Reads are at column
`j - 1`, so they always see the pre-loop table.) -/
theorem buildInner_ok {n k j : ℕ} (hj1 : 1 ≤ j) (hjk : j < k) :
    ∀ fuel st i, Shape st n k → n + 1 ≤ i + fuel →
      ∃ st1, buildInner n j fuel st i = .ok st1 ∧ Shape st1 n k ∧
        (∀ p, i ≤ p → p + 2 ^ j ≤ n →
          getST st1 p j = min (getST st p (j - 1)) (getST st (p + 2 ^ (j - 1)) (j - 1))) ∧
        (∀ p q, ¬ (i ≤ p ∧ p + 2 ^ j ≤ n ∧ q = j) → getST st1 p q = getST st p q) := by
  have h2j : 1 ≤ 2 ^ j := Nat.one_le_two_pow
  intro fuel
  induction fuel with
  | zero =>
    intro st i hsh hin
    exact ⟨st, rfl, hsh, fun p hp1 hp2 => by omega, fun p q _ => rfl⟩
  | succ fuel ih =>
    intro st i hsh hin
    rw [buildInner]
    by_cases hc : i + 2 ^ j ≤ n
    · rw [if_pos hc,
        setST_some (min (getST st i (j - 1)) (getST st (i + 2 ^ (j - 1)) (j - 1))) hsh
          (by omega) hjk]
      obtain ⟨st1, hok, hsh1, hw, hf⟩ := ih
        (st.set i ((st.getD i []).set j
          (min (getST st i (j - 1)) (getST st (i + 2 ^ (j - 1)) (j - 1))))) (i + 1)
        (setST_shape i j _ hsh) (by omega)
      refine ⟨st1, hok, hsh1, ?_, ?_⟩
      · intro p hp1 hp2
        rcases Nat.eq_or_lt_of_le hp1 with rfl | hlt
        · rw [hf i j (by omega), getST_set_self _ hsh (by omega) hjk]
        · rw [hw p (by omega) hp2, getST_set_ne _ (by omega), getST_set_ne _ (by omega)]
      · intro p q hpq
        rw [hf p q (by omega), getST_set_ne _ (by omega)]
    · rw [if_neg hc]
      exact ⟨st, rfl, hsh, fun p hp1 hp2 => by omega, fun p q _ => rfl⟩

end SparseTable

namespace SparseTable

/-- The outer loop, entered at level `j` with all previous levels correct,
finishes all remaining levels (provided every visited level fits in the `k`
allocated columns) and touches only the cells of those levels. -/
theorem buildOuter_ok {a : List V} {n k : ℕ}
    (hnk : ∀ q, 1 ≤ q → 2 ^ q ≤ n → q < k) :
    ∀ fuel j st, 1 ≤ j → n + 2 ≤ 2 ^ j + fuel → Shape st n k →
      (∀ q p, q < j → 2 ^ q ≤ n → p + 2 ^ q ≤ n → cellOK a st p q) →
      ∃ st1, buildOuter n fuel st j = .ok st1 ∧ Shape st1 n k ∧
        (∀ q p, 2 ^ q ≤ n → p + 2 ^ q ≤ n → cellOK a st1 p q) ∧
        (∀ p q, ¬ (j ≤ q ∧ 2 ^ q ≤ n ∧ p + 2 ^ q ≤ n) → getST st1 p q = getST st p q) := by
  intro fuel
  induction fuel with
  | zero =>
    intro j st hj1 hfu hsh hinv
    refine ⟨st, rfl, hsh, ?_, fun p q _ => rfl⟩
    intro q p hq hpq
    have hqj : q < j :=
      (Nat.pow_lt_pow_iff_right (by omega : 1 < 2)).mp (show 2 ^ q < 2 ^ j by omega)
    exact hinv q p hqj hq hpq
  | succ fuel ih =>
    intro j st hj1 hfu hsh hinv
    have h2j : 1 ≤ 2 ^ j := Nat.one_le_two_pow
    rw [buildOuter]
    by_cases hc : 2 ^ j ≤ n
    · rw [if_pos hc]
      obtain ⟨stI, hIok, hIsh, hIw, hIf⟩ :=
        buildInner_ok hj1 (hnk j hj1 hc) (n + 1) st 0 hsh (by omega)
      have h2s : (2 : ℕ) ^ (j + 1) = 2 * 2 ^ j := by rw [pow_succ, Nat.mul_comm]
      have h2h : (2 : ℕ) ^ j = 2 ^ (j - 1) + 2 ^ (j - 1) := by
        have hps := pow_succ 2 (j - 1)
        have hj9 : j - 1 + 1 = j := by omega
        rw [hj9] at hps
        omega
      have hinvI : ∀ q p, q < j + 1 → 2 ^ q ≤ n → p + 2 ^ q ≤ n → cellOK a stI p q := by
        intro q p hq hq2 hpq
        by_cases hqj : q < j
        · rw [cellOK, hIf p q (by omega), ← cellOK]
          exact hinv q p hqj hq2 hpq
        · have hq_eq : q = j := by omega
          have hpqj : p + 2 ^ j ≤ n := by rw [← hq_eq]; exact hpq
          have hq2j : (2 : ℕ) ^ j ≤ n := by rw [← hq_eq]; exact hq2
          rw [cellOK, hq_eq, hIw p (by omega) hpqj]
          have hA := hinv (j - 1) p (by omega) (by omega) (by omega)
          have hB := hinv (j - 1) (p + 2 ^ (j - 1)) (by omega) (by omega) (by omega)
          rw [cellOK] at hA hB
          rw [hA, hB, ← inf_eq_min, ← Finset.inf_union,
            Finset.Ico_union_Ico_eq_Ico (by omega) (by omega)]
          congr 2
          omega
      obtain ⟨st1, h1ok, h1sh, h1c, h1f⟩ := ih (j + 1) stI (by omega) (by omega) hIsh hinvI
      refine ⟨st1, ?_, h1sh, h1c, ?_⟩
      · rw [hIok]
        exact h1ok
      · intro p q hpq
        have hq_ne : ¬ (0 ≤ p ∧ p + 2 ^ j ≤ n ∧ q = j) := by
          rintro ⟨-, hpj, rfl⟩
          exact hpq ⟨le_refl _, hc, hpj⟩
        rw [h1f p q (by omega), hIf p q hq_ne]
    · rw [if_neg hc]
      refine ⟨st, rfl, hsh, ?_, fun p q _ => rfl⟩
      intro q p hq hpq
      have hqj : q < j :=
        (Nat.pow_lt_pow_iff_right (by omega : 1 < 2)).mp (show 2 ^ q < 2 ^ j by omega)
      exact hinv q p hqj hq hpq

/-- The outer loop fails (with an `IndexError`) as soon as it reaches level
`k`, which happens whenever `2 ^ k ≤ n`. -/
theorem buildOuter_err {n k : ℕ} (hkn : 2 ^ k ≤ n) :
    ∀ fuel j st, 1 ≤ j → j ≤ k → Shape st n k → k + 1 ≤ j + fuel →
      ∃ stE, buildOuter n fuel st j = .error stE := by
  have hn : 0 < n := lt_of_lt_of_le (Nat.pos_pow_of_pos k (by omega)) hkn
  intro fuel
  induction fuel with
  | zero => intro j st hj1 hjk hsh hfu; omega
  | succ fuel ih =>
    intro j st hj1 hjk hsh hfu
    have hc : 2 ^ j ≤ n := le_trans (Nat.pow_le_pow_right (by omega) hjk) hkn
    rw [buildOuter, if_pos hc]
    rcases Nat.eq_or_lt_of_le hjk with rfl | hlt
    · have hfail : buildInner n j (n + 1) st 0 = .error st := by
        rw [buildInner, if_pos (by omega), setST_none _ hsh (by omega) (by omega)]
      rw [hfail]
      exact ⟨st, rfl⟩
    · obtain ⟨stI, hIok, hIsh, _, _⟩ :=
        buildInner_ok hj1 hlt (n + 1) st 0 hsh (by omega)
      obtain ⟨stE, hE⟩ := ih (j + 1) stI (by omega) hlt hIsh (by omega)
      refine ⟨stE, ?_⟩
      rw [hIok]
      exact hE

end SparseTable

theorem getD_replicate {α : Type} (d : α) (n i : ℕ) : (List.replicate n d).getD i d = d := by
  rw [List.getD_eq_getElem?_getD]
  exact List.getElem?_getD_replicate_default_eq d n i

/-- The log-table loop: after processing `2, 3, ..., c + 1`, entries up to
`c + 1` hold `floor(log2 .)` and later entries are still `0`. -/
theorem ltBuildAux (n : ℕ) :
    ∀ c, c ≤ n - 1 →
      (∀ m, m ≤ n → m ≤ c + 1 →
        ((List.range' 2 c).foldl (fun lt i => lt.set i (lt.getD (i / 2) 0 + 1))
          (List.replicate (n + 1) 0)).getD m 0 = Nat.log 2 m) ∧
      (∀ m, c + 1 < m →
        ((List.range' 2 c).foldl (fun lt i => lt.set i (lt.getD (i / 2) 0 + 1))
          (List.replicate (n + 1) 0)).getD m 0 = 0) ∧
      ((List.range' 2 c).foldl (fun lt i => lt.set i (lt.getD (i / 2) 0 + 1))
        (List.replicate (n + 1) 0)).length = n + 1 := by
  intro c
  induction c with
  | zero =>
    intro _
    refine ⟨?_, ?_, by rw [List.range', List.foldl_nil, List.length_replicate]⟩
    · intro m _ hm
      have : m = 0 ∨ m = 1 := by omega
      rcases this with rfl | rfl
      · rw [List.range', List.foldl_nil, getD_replicate, Nat.log_zero_right]
      · rw [List.range', List.foldl_nil, getD_replicate, Nat.log_one_right]
    · intro m _
      rw [List.range', List.foldl_nil, getD_replicate]
  | succ c ih =>
    intro hc
    obtain ⟨ih1, ih2, ih3⟩ := ih (by omega)
    have hcat : List.range' 2 (c + 1) = List.range' 2 c ++ [c + 2] := by
      rw [List.range'_concat]
      congr 1
      simp
      omega
    rw [hcat, List.foldl_append, List.foldl_cons, List.foldl_nil]
    have hland : c + 2 < ((List.range' 2 c).foldl
        (fun lt i => lt.set i (lt.getD (i / 2) 0 + 1))
        (List.replicate (n + 1) 0)).length := by
      rw [ih3]
      omega
    refine ⟨?_, ?_, by rw [List.length_set, ih3]⟩
    · intro m hmn hm
      rcases Nat.lt_or_ge m (c + 2) with hlt | hge
      · rw [getD_set_ne _ (by omega), ih1 m hmn (by omega)]
      · have hme : m = c + 2 := by omega
        subst hme
        rw [getD_set_self _ hland, ih1 ((c + 2) / 2) (by omega) (by omega),
          ← Nat.log_of_one_lt_of_le (by omega) (by omega)]
    · intro m hm
      rw [getD_set_ne _ (by omega), ih2 m (by omega)]

theorem ltBuild_getD {n m : ℕ} (hm : m ≤ n) :
    (SparseTable.ltBuild n).getD m 0 = Nat.log 2 m := by
  cases n with
  | zero =>
    have hm0 : m = 0 := by omega
    subst hm0
    rw [Nat.log_zero_right]
    rfl
  | succ n1 =>
    exact (ltBuildAux (n1 + 1) (n1 + 1 - 1) (by omega)).1 m hm (by omega)

namespace SparseTable

/-- `_build_sparse_table` succeeds whenever every visited level fits in the
allocated columns, and produces the fully correct table. -/
theorem buildSparse_ok {a : List V} {n k : ℕ} {st : List (List V)}
    (hsh : Shape st n k) (hn : 0 < n) (hk : 0 < k)
    (hnk : ∀ q, 1 ≤ q → 2 ^ q ≤ n → q < k) :
    ∃ st1, buildSparse a n st = .ok st1 ∧ Shape st1 n k ∧
      (∀ q p, 2 ^ q ≤ n → p + 2 ^ q ≤ n → cellOK a st1 p q) ∧
      (∀ p q, ¬ (q = 0 ∧ p < n) → ¬ (1 ≤ q ∧ 2 ^ q ≤ n ∧ p + 2 ^ q ≤ n) →
        getST st1 p q = getST st p q) := by
  obtain ⟨st0, h0ok, h0sh, h0w, h0f⟩ := @buildLevel0_ok a n k hk n st 0 hsh (by omega)
  have hinv0 : ∀ q p, q < 1 → 2 ^ q ≤ n → p + 2 ^ q ≤ n → cellOK a st0 p q := by
    intro q p hq hq2 hpq
    have hq0 : q = 0 := by omega
    subst hq0
    rw [cellOK, h0w p (by omega) (by omega : p < 0 + n), pow_zero,
      show Finset.Ico p (p + 1) = {p} from by
        ext x
        simp only [Finset.mem_Ico, Finset.mem_singleton]
        omega,
      Finset.inf_singleton]
  obtain ⟨st1, h1ok, h1sh, h1c, h1f⟩ := buildOuter_ok hnk (n + 1) 1 st0 (Nat.le_refl 1)
    (by omega) h0sh hinv0
  refine ⟨st1, ?_, h1sh, h1c, ?_⟩
  · rw [buildSparse, h0ok]
    exact h1ok
  · intro p q hq0 hq1
    rw [h1f p q (by omega), h0f p q (by omega)]

/-- When no columns are allocated (`n = 1`), the very first level-0 write
fails. -/
theorem buildSparse_err_k0 {a : List V} {n : ℕ} {st : List (List V)}
    (hsh : Shape st n 0) (hn : 0 < n) : buildSparse a n st = .error st := by
  have h0 : buildLevel0 a n st 0 = .error st := by
    cases n with
    | zero => omega
    | succ m =>
      rw [buildLevel0, setST_none _ hsh (by omega) (by omega)]
  rw [buildSparse, h0]

/-- When the length is a power of two (`2 ^ k ≤ n` with `k` columns), the
build reaches level `k` and fails. -/
theorem buildSparse_err_pow {a : List V} {n k : ℕ} {st : List (List V)}
    (hsh : Shape st n k) (hk1 : 1 ≤ k) (hkn : 2 ^ k ≤ n) :
    ∃ stE, buildSparse a n st = .error stE := by
  have hn : 0 < n := lt_of_lt_of_le (Nat.pos_pow_of_pos k (by omega)) hkn
  have hk2 : k < 2 ^ k := Nat.lt_two_pow k
  obtain ⟨st0, h0ok, h0sh, _, _⟩ := @buildLevel0_ok a n k (by omega) n st 0 hsh (by omega)
  obtain ⟨stE, hE⟩ := buildOuter_err hkn (n + 1) 1 st0 (Nat.le_refl 1) hk1 h0sh (by omega)
  refine ⟨stE, ?_⟩
  rw [buildSparse, h0ok]
  exact hE

end SparseTable

namespace SparseTable

theorem replicate_shape (n k : ℕ) :
    Shape (List.replicate n (List.replicate k (⊤ : V))) n k := by
  refine ⟨List.length_replicate n _, ?_⟩
  intro row hrow
  rw [List.eq_of_mem_replicate hrow, List.length_replicate]

/-- Everything a successful `SparseTable.__init__` guarantees: the cached
fields, the non-power-of-two length, and the fully built table. -/
theorem init_ok_sparse {a : List V} {s : State} (h : init a = .ok s) :
    s.array = a ∧ s.n = a.length ∧ s.lt = ltBuild a.length ∧ a ≠ [] ∧
      ¬ isPow2 a.length ∧ Shape s.st a.length (ceilLog2 a.length) ∧
      (∀ q p, 2 ^ q ≤ a.length → p + 2 ^ q ≤ a.length → cellOK a s.st p q) := by
  unfold init at h
  split_ifs at h with ha
  simp only [] at h
  have hnpos : 0 < a.length := List.length_pos.mpr ha
  have hnp : ¬ isPow2 a.length := by
    intro hp
    obtain ⟨m, hm1, hm2⟩ := hp
    have hk : ceilLog2 a.length = m := by rw [hm2, ceilLog2_pow]
    rcases Nat.eq_zero_or_pos m with rfl | hm0
    · rw [hk] at h
      rw [@buildSparse_err_k0 a a.length
        (List.replicate a.length (List.replicate 0 ⊤)) (replicate_shape a.length 0) hnpos] at h
      exact Except.noConfusion h
    · obtain ⟨stE, hE⟩ := @buildSparse_err_pow a a.length (ceilLog2 a.length)
        (List.replicate a.length (List.replicate (ceilLog2 a.length) ⊤))
        (replicate_shape a.length (ceilLog2 a.length)) (by omega) (by rw [hk, ← hm2])
      rw [hE] at h
      exact Except.noConfusion h
  have hk : 0 < ceilLog2 a.length := ceilLog2_pos (nonpow2_two_le hnpos hnp)
  obtain ⟨st1, hok, hsh, hcells, _⟩ := buildSparse_ok
    (replicate_shape a.length (ceilLog2 a.length)) hnpos hk
    (fun q h1 h2 => ceilLog2_level_lt hnpos hnp h1 h2)
  rw [hok] at h
  have h2 : Except.ok (⟨a, a.length, ltBuild a.length, st1⟩ : State) = .ok s := h
  obtain rfl := Except.ok.inj h2
  exact ⟨rfl, rfl, rfl, ha, hnp, hsh, hcells⟩

/-- On a power-of-two length, `SparseTable.__init__` raises `IndexError`. -/
theorem init_err {a : List V} (ha : a ≠ []) (hp : isPow2 a.length) :
    init a = .error .indexOOB := by
  unfold init
  rw [if_neg ha]
  simp only []
  obtain ⟨m, hm1, hm2⟩ := hp
  have hnpos : 0 < a.length := List.length_pos.mpr ha
  have hk : ceilLog2 a.length = m := by rw [hm2, ceilLog2_pow]
  rcases Nat.eq_zero_or_pos m with rfl | hm0
  · rw [hk, @buildSparse_err_k0 a a.length
      (List.replicate a.length (List.replicate 0 ⊤)) (replicate_shape a.length 0) hnpos]
  · obtain ⟨stE, hE⟩ := @buildSparse_err_pow a a.length (ceilLog2 a.length)
      (List.replicate a.length (List.replicate (ceilLog2 a.length) ⊤))
      (replicate_shape a.length (ceilLog2 a.length)) (by omega) (by rw [hk, ← hm2])
    rw [hE]

/-- Non-power-of-two length gives a successful construction. -/
theorem init_ok_of_not_pow2 {a : List V} (ha : a ≠ []) (hp : ¬ isPow2 a.length) :
    ∃ s, init a = .ok s := by
  have hnpos : 0 < a.length := List.length_pos.mpr ha
  have hk : 0 < ceilLog2 a.length := ceilLog2_pos (nonpow2_two_le hnpos hp)
  obtain ⟨st1, hok, _, _, _⟩ := buildSparse_ok
    (replicate_shape a.length (ceilLog2 a.length)) hnpos hk
    (fun q h1 h2 => ceilLog2_level_lt hnpos hp h1 h2)
  refine ⟨⟨a, a.length, ltBuild a.length, st1⟩, ?_⟩
  unfold init
  rw [if_neg ha]
  simp only []
  rw [hok]

/-- The shape of a successful `SparseTable.update`. -/
theorem update_ok_sparse {s s1 : State} {i : ℤ} {v : V}
    (h : update s (.int i) (.float v) = .ok s1) :
    0 ≤ i ∧ i < (s.n : ℤ) ∧
      buildSparse (s.array.set i.toNat v) s.n s.st = .ok s1.st ∧
      s1 = ⟨s.array.set i.toNat v, s.n, s.lt, s1.st⟩ := by
  simp only [update] at h
  split_ifs at h with hc
  split at h
  next st2 heq => exact Except.noConfusion h
  next st2 heq =>
    obtain rfl := Except.ok.inj h
    exact ⟨hc.1, hc.2, heq, rfl⟩

end SparseTable

/-- Well-formedness of a `SparseTable` state, preserved by every operation
of any constructed instance: cached fields consistent, correct shape, and a
non-power-of-two length. -/
def SPShape (s : SparseTable.State) : Prop :=
  s.array.length = s.n ∧ s.lt = SparseTable.ltBuild s.n ∧
    Shape s.st s.n (ceilLog2 s.n) ∧ ¬ isPow2 s.n

instance (s : SparseTable.State) : Decidable (SPShape s) := by
  unfold SPShape
  infer_instance

theorem SparseTable.init_SPShape {a : List V} {s : SparseTable.State}
    (h : SparseTable.init a = .ok s) : SPShape s := by
  obtain ⟨h1, h2, h3, h4, h5, h6, h7⟩ := SparseTable.init_ok_sparse h
  refine ⟨?_, ?_, ?_, ?_⟩
  · rw [h1, h2]
  · rw [h2, h3]
  · rw [h2]
    exact h6
  · rw [h2]
    exact h5

/-- A successful update on a well-shaped state: the new state is well-shaped
and its table is fully correct for the updated array. -/
theorem SparseTable.update_SPShape {s s1 : SparseTable.State} {i : ℤ} {v : V}
    (hsp : SPShape s) (h : SparseTable.update s (.int i) (.float v) = .ok s1) :
    SPShape s1 ∧ s1.array = s.array.set i.toNat v ∧ s1.n = s.n ∧ s1.lt = s.lt ∧
      (∀ q p, 2 ^ q ≤ s.n → p + 2 ^ q ≤ s.n → cellOK s1.array s1.st p q) := by
  obtain ⟨hln, hlt, hsh, hnp⟩ := hsp
  obtain ⟨h0, hn, hbuild, hs1⟩ := SparseTable.update_ok_sparse h
  have ha1 : s1.array = s.array.set i.toNat v := by rw [hs1]
  have hn1 : s1.n = s.n := by rw [hs1]
  have hl1 : s1.lt = s.lt := by rw [hs1]
  have hnpos : 0 < s.n := by omega
  have hk : 0 < ceilLog2 s.n := ceilLog2_pos (nonpow2_two_le hnpos hnp)
  obtain ⟨st1, hok, hsh1, hcells, _⟩ := @SparseTable.buildSparse_ok
    (s.array.set i.toNat v) s.n (ceilLog2 s.n) s.st hsh hnpos hk
    (fun q h1 h2 => ceilLog2_level_lt hnpos hnp h1 h2)
  rw [hok] at hbuild
  obtain hst := Except.ok.inj hbuild
  refine ⟨⟨?_, ?_, ?_, ?_⟩, ha1, hn1, hl1, ?_⟩
  · rw [ha1, List.length_set, hn1]
    exact hln
  · rw [hl1, hn1]
    exact hlt
  · rw [hn1, ← hst]
    exact hsh1
  · rw [hn1]
    exact hnp
  · intro q p h1 h2
    rw [cellOK, ha1, ← hst]
    exact hcells q p h1 h2

/-- With consistent cached fields and a fully built table,
`SparseTable.query` on a valid range returns exactly the scan minimum. -/
theorem SparseTable.query_eq_scanMin_sparse {s : SparseTable.State} {l r : ℕ}
    (hlen : s.array.length = s.n)
    (hlt : s.lt = SparseTable.ltBuild s.n)
    (hcells : ∀ q p, 2 ^ q ≤ s.n → p + 2 ^ q ≤ s.n → cellOK s.array s.st p q)
    (hl : l ≤ r) (hr : r < s.array.length) :
    SparseTable.query s (.int l) (.int r) = .ok (scanMin s.array l r, s) := by
  have hb : (0 ≤ (l : ℤ) ∧ (l : ℤ) < (s.array.length : ℤ)) ∧
      (0 ≤ (r : ℤ) ∧ (r : ℤ) < (s.array.length : ℤ)) := by omega
  rw [SparseTable.query, if_pos hb, if_neg (by omega : ¬ ((l : ℤ) > (r : ℤ)))]
  simp only [Int.toNat_natCast]
  have hj : s.lt.getD (r - l + 1) 0 = Nat.log 2 (r - l + 1) := by
    rw [hlt]
    exact ltBuild_getD (by omega)
  rw [hj]
  have hpow1 : 2 ^ Nat.log 2 (r - l + 1) ≤ r - l + 1 :=
    Nat.pow_log_le_self 2 (by omega)
  have hpow2 : r - l + 1 < 2 ^ (Nat.log 2 (r - l + 1) + 1) :=
    Nat.lt_pow_succ_log_self (by omega) (r - l + 1)
  have hps : (2 : ℕ) ^ (Nat.log 2 (r - l + 1) + 1) = 2 ^ Nat.log 2 (r - l + 1) * 2 :=
    pow_succ 2 _
  have hc1 := hcells (Nat.log 2 (r - l + 1)) l (by omega) (by omega)
  have hc2 := hcells (Nat.log 2 (r - l + 1)) (r + 1 - 2 ^ Nat.log 2 (r - l + 1))
    (by omega) (by omega)
  rw [cellOK] at hc1 hc2
  rw [hc1, hc2, ← inf_eq_min, ← Finset.inf_union]
  have hcover : Finset.Ico l (l + 2 ^ Nat.log 2 (r - l + 1)) ∪
      Finset.Ico (r + 1 - 2 ^ Nat.log 2 (r - l + 1))
        (r + 1 - 2 ^ Nat.log 2 (r - l + 1) + 2 ^ Nat.log 2 (r - l + 1)) =
      Finset.Icc l r := by
    ext x
    simp only [Finset.mem_union, Finset.mem_Ico, Finset.mem_Icc]
    omega
  rw [hcover]
  rfl

/-- C3: on a non-empty list, `SparseTable` construction succeeds exactly
when the length is not an exact power of two; on a power of two (including
a single-element list) `__init__` raises the out-of-bounds `IndexError`
because the build writes one level past the `ceil(log2 n)` allocated
levels. -/
theorem claim_C3_sparse_init_iff_not_pow2 :
    ∀ a : List V, a ≠ [] →
      ((∃ s, SparseTable.init a = .ok s) ↔ ¬ isPow2 a.length) ∧
      (isPow2 a.length → SparseTable.init a = .error .indexOOB) := by
  intro a ha
  refine ⟨⟨?_, ?_⟩, ?_⟩
  · rintro ⟨s, hs⟩
    exact (SparseTable.init_ok_sparse hs).2.2.2.2.1
  · intro hp
    exact SparseTable.init_ok_of_not_pow2 ha hp
  · intro hp
    exact SparseTable.init_err ha hp

/-- Witness for C3 at length 3 (not a power of two: succeeds) and length 2
(a power of two: IndexError). -/
theorem claim_C3_sparse_init_iff_not_pow2_witness :
    (∃ s, SparseTable.init [(1 : V), 2, 3] = .ok s) ∧
    SparseTable.init [(1 : V), 2] = .error .indexOOB :=
  ⟨(claim_C3_sparse_init_iff_not_pow2 [1, 2, 3] (by decide)).1.mpr (by decide),
   (claim_C3_sparse_init_iff_not_pow2 [1, 2] (by decide)).2 (by decide)⟩

/-- C5 (amended): for any fixed non-empty sequence whose length is not an
exact power of two and any valid pair `left ≤ right` inside the sequence,
all four strategies construct successfully and their queries return the
same minimum, namely the direct scan minimum.  (The restriction on the
length is forced by the `SparseTable` construction failure of the
counterexample.) -/
theorem claim_C5_amended_all_strategies_agree :
    ∀ (a : List V) (l r : ℕ), a ≠ [] → ¬ isPow2 a.length → l ≤ r → r < a.length →
      Naive.runQ a l r = .ok (scanMin a l r) ∧
      SegmentTree.runQ a l r = .ok (scanMin a l r) ∧
      SparseTable.runQ a l r = .ok (scanMin a l r) ∧
      SRD.runQ a l r = .ok (scanMin a l r) := by
  intro a l r ha hp hl hr
  refine ⟨?_, ?_, ?_, ?_⟩
  · have hini : Naive.init a = .ok ⟨a⟩ := by
      unfold Naive.init
      rw [if_neg ha]
    unfold Naive.runQ
    rw [hini]
    simp only [Naive.query_eq_scanMin_naive hl hr]
  · have hini : SegmentTree.init a = .ok ⟨a, a.length,
        SegmentTree.constructRec a a.length (fun _ => ⊤) 0 0 (a.length - 1)⟩ := by
      unfold SegmentTree.init
      rw [if_neg ha]
    unfold SegmentTree.runQ
    rw [hini]
    simp only [SegmentTree.query_eq_scanMin_seg (SegmentTree.init_SegWF hini) hl hr]
  · obtain ⟨s, hs⟩ := SparseTable.init_ok_of_not_pow2 ha hp
    obtain ⟨h1, h2, h3, _, _, _, h7⟩ := SparseTable.init_ok_sparse hs
    unfold SparseTable.runQ
    rw [hs]
    simp only [SparseTable.query_eq_scanMin_sparse (by rw [h1, h2]) (by rw [h3, h2])
      (by rw [h2, h1]; exact h7) hl (by rw [h1]; exact hr), h1]
  · have hini := SRD.init.eq_def a
    rw [if_neg ha] at hini
    simp only [] at hini
    have hfeed := SRD.init_feed hini ha
    have hbs : 0 < ceilSqrt a.length :=
      ceilSqrt_pos (List.length_pos.mpr ha)
    unfold SRD.runQ
    rw [hini]
    simp only [SRD.query_eq_scanMin_srd hbs hfeed rfl hl hr]

/-- Witness for C5 (amended) on `[5, 3, 8]` (length 3, not a power of two)
over the full range. -/
theorem claim_C5_amended_all_strategies_agree_witness :
    Naive.runQ [5, 3, 8] 0 2 = .ok (scanMin [5, 3, 8] 0 2) ∧
    SegmentTree.runQ [5, 3, 8] 0 2 = .ok (scanMin [5, 3, 8] 0 2) ∧
    SparseTable.runQ [5, 3, 8] 0 2 = .ok (scanMin [5, 3, 8] 0 2) ∧
    SRD.runQ [5, 3, 8] 0 2 = .ok (scanMin [5, 3, 8] 0 2) :=
  claim_C5_amended_all_strategies_agree [5, 3, 8] 0 2 (by decide) (by decide)
    (by decide) (by decide)

/-- On a well-shaped state, a failed `SparseTable.update` is a validation
failure and carries the untouched state (the rebuild cannot fail). -/
theorem SparseTable.update_errState_sparse {s : SparseTable.State} {iv vv : PyVal} {e : Err}
    {s1 : SparseTable.State} (hsp : SPShape s)
    (h : SparseTable.update s iv vv = .error (e, s1)) : s1 = s := by
  unfold SparseTable.update at h
  split at h
  case _ i =>
    split at h
    case _ v =>
      split_ifs at h with hc
      · simp only [] at h
        obtain ⟨hln, hlt, hsh, hnp⟩ := hsp
        have hnpos : 0 < s.n := by omega
        obtain ⟨st1, hok, _, _, _⟩ := @SparseTable.buildSparse_ok
          (s.array.set i.toNat v) s.n (ceilLog2 s.n) s.st hsh hnpos
          (ceilLog2_pos (nonpow2_two_le hnpos hnp))
          (fun q h1 h2 => ceilLog2_level_lt hnpos hnp h1 h2)
        rw [hok] at h
        exact Except.noConfusion h
      · injection h with h2
        injection h2 with h3 h4
        exact h4.symm
    all_goals
      injection h with h2
      injection h2 with h3 h4
      exact h4.symm
  all_goals
    injection h with h2
    injection h2 with h3 h4
    exact h4.symm

/-- C7: for every strategy, a call of `update` or `query` that raises a
validation error (`InvalidType`, `IndexOutOfBounds` or `InvalidRange`)
leaves the state exactly as it was — validation precedes mutation, so the
failed call is unobservable (for the `SparseTable` update this holds on
every well-shaped state, where the rebuild cannot itself fail). -/
theorem claim_C7_validation_errors_leave_state_unchanged :
    (∀ (s : Naive.State) (iv vv : PyVal) (e : Err) (s1 : Naive.State),
        Naive.update s iv vv = .error (e, s1) → s1 = s) ∧
    (∀ (s : Naive.State) (lv rv : PyVal) (e : Err) (s1 : Naive.State),
        Naive.query s lv rv = .error (e, s1) → s1 = s) ∧
    (∀ (s : SRD.State) (iv vv : PyVal) (e : Err) (s1 : SRD.State),
        SRD.update s iv vv = .error (e, s1) → s1 = s) ∧
    (∀ (s : SRD.State) (lv rv : PyVal) (e : Err) (s1 : SRD.State),
        SRD.query s lv rv = .error (e, s1) → s1 = s) ∧
    (∀ (s : SegmentTree.State) (iv vv : PyVal) (e : Err) (s1 : SegmentTree.State),
        SegmentTree.update s iv vv = .error (e, s1) → s1 = s) ∧
    (∀ (s : SegmentTree.State) (lv rv : PyVal) (e : Err) (s1 : SegmentTree.State),
        SegmentTree.query s lv rv = .error (e, s1) → s1 = s) ∧
    (∀ (s : SparseTable.State) (iv vv : PyVal) (e : Err) (s1 : SparseTable.State),
        SPShape s → SparseTable.update s iv vv = .error (e, s1) → s1 = s) ∧
    (∀ (s : SparseTable.State) (lv rv : PyVal) (e : Err) (s1 : SparseTable.State),
        SparseTable.query s lv rv = .error (e, s1) → s1 = s) :=
  ⟨fun _ _ _ _ _ h => Naive.update_errState_naive h,
   fun _ _ _ _ _ h => Naive.query_errState_naive h,
   fun _ _ _ _ _ h => SRD.update_errState_srd h,
   fun _ _ _ _ _ h => SRD.query_errState_srd h,
   fun _ _ _ _ _ h => SegmentTree.update_errState_seg h,
   fun _ _ _ _ _ h => SegmentTree.query_errState_seg h,
   fun _ _ _ _ _ hs h => SparseTable.update_errState_sparse hs h,
   fun _ _ _ _ _ h => SparseTable.query_errState_sparse h⟩

/-- Witness for C7: a rejected out-of-bounds update and an inverted-range
query on concrete instances of each strategy, plus a rejected non-integer
index. -/
theorem claim_C7_validation_errors_leave_state_unchanged_witness :
    ((⟨[5, 3]⟩ : Naive.State) = ⟨[5, 3]⟩) ∧
    ((⟨[5, 3]⟩ : Naive.State) = ⟨[5, 3]⟩) ∧
    ((⟨[5, 3], 2, 2, [3]⟩ : SRD.State) = ⟨[5, 3], 2, 2, [3]⟩) ∧
    ((⟨[5, 3], 2, 2, [3]⟩ : SRD.State) = ⟨[5, 3], 2, 2, [3]⟩) ∧
    (initState (SegmentTree.init [5, 3]) ⟨[], 0, fun _ => ⊤⟩ =
      initState (SegmentTree.init [5, 3]) ⟨[], 0, fun _ => ⊤⟩) ∧
    (initState (SparseTable.init [5, 3, 8]) ⟨[], 0, [], []⟩ =
      initState (SparseTable.init [5, 3, 8]) ⟨[], 0, [], []⟩) ∧
    (initState (SparseTable.init [5, 3, 8]) ⟨[], 0, [], []⟩ =
      initState (SparseTable.init [5, 3, 8]) ⟨[], 0, [], []⟩) :=
  ⟨claim_C7_validation_errors_leave_state_unchanged.1 ⟨[5, 3]⟩ (.int 7) (.float 1)
      .indexOOB _ (by decide),
   claim_C7_validation_errors_leave_state_unchanged.2.1 ⟨[5, 3]⟩ (.int 1) (.int 0)
      .invalidRange _ (by decide),
   claim_C7_validation_errors_leave_state_unchanged.2.2.1 ⟨[5, 3], 2, 2, [3]⟩ .other
      (.float 1) .invalidType _ (by decide),
   claim_C7_validation_errors_leave_state_unchanged.2.2.2.1 ⟨[5, 3], 2, 2, [3]⟩
      (.int (-1)) (.int 1) .indexOOB _ (by decide),
   claim_C7_validation_errors_leave_state_unchanged.2.2.2.2.1
      (initState (SegmentTree.init [5, 3]) ⟨[], 0, fun _ => ⊤⟩) (.int 5) (.float 1)
      .indexOOB _ (by rfl),
   claim_C7_validation_errors_leave_state_unchanged.2.2.2.2.2.2.1
      (initState (SparseTable.init [5, 3, 8]) ⟨[], 0, [], []⟩) (.int 3) (.float 1)
      .indexOOB _ (by decide) (by decide),
   claim_C7_validation_errors_leave_state_unchanged.2.2.2.2.2.2.2
      (initState (SparseTable.init [5, 3, 8]) ⟨[], 0, [], []⟩) (.int 0) (.float 1)
      .invalidType _ (by decide)⟩

/-- `SRD.query(i, i)` reads only the array (no feed access), so it returns
the element even when the feed is stale. -/
theorem SRD.query_diag {s : SRD.State} {i : ℕ} (h : i < s.array.length) :
    SRD.query s (.int i) (.int i) = .ok (elem s.array i, s) := by
  have hb : (0 ≤ (i : ℤ) ∧ (i : ℤ) < (s.array.length : ℤ)) ∧
      (0 ≤ (i : ℤ) ∧ (i : ℤ) < (s.array.length : ℤ)) := by omega
  rw [SRD.query, if_pos hb, if_neg (by omega : ¬ ((i : ℤ) > (i : ℤ)))]
  simp [SRD.queryLoop1, SRD.queryLoop2, SRD.queryLoop3, min_top_left]

/-- C8: for every strategy, immediately after a successful `update(i, v)`
the call `query(i, i)` returns exactly `v` (for the tree-backed strategies
this is stated on well-formed states, which every constructed instance
satisfies). -/
theorem claim_C8_update_visibility :
    (∀ (s s1 : Naive.State) (i : ℤ) (v : V),
        Naive.update s (.int i) (.float v) = .ok s1 →
        Naive.query s1 (.int i) (.int i) = .ok (v, s1)) ∧
    (∀ (s s1 : SRD.State) (i : ℤ) (v : V),
        SRD.update s (.int i) (.float v) = .ok s1 →
        SRD.query s1 (.int i) (.int i) = .ok (v, s1)) ∧
    (∀ (s s1 : SegmentTree.State) (i : ℤ) (v : V), SegWF s →
        SegmentTree.update s (.int i) (.float v) = .ok s1 →
        SegmentTree.query s1 (.int i) (.int i) = .ok (v, s1)) ∧
    (∀ (s s1 : SparseTable.State) (i : ℤ) (v : V), SPShape s →
        SparseTable.update s (.int i) (.float v) = .ok s1 →
        SparseTable.query s1 (.int i) (.int i) = .ok (v, s1)) := by
  refine ⟨?_, ?_, ?_, ?_⟩
  · intro s s1 i v h
    obtain ⟨h0, hlt, rfl⟩ := Naive.update_ok_naive h
    obtain ⟨j, rfl⟩ : ∃ j : ℕ, i = (j : ℤ) := ⟨i.toNat, (Int.toNat_of_nonneg h0).symm⟩
    simp only [Int.toNat_natCast] at hlt ⊢
    rw [Naive.query_eq_scanMin_naive (Nat.le_refl j) (by rw [List.length_set]; omega),
      scanMin_singleton, elem_set_self v (by omega)]
  · intro s s1 i v h
    obtain ⟨h0, hlt, rfl⟩ := SRD.update_ok_srd h
    obtain ⟨j, rfl⟩ : ∃ j : ℕ, i = (j : ℤ) := ⟨i.toNat, (Int.toNat_of_nonneg h0).symm⟩
    simp only [Int.toNat_natCast] at hlt ⊢
    rw [SRD.query_diag (by rw [List.length_set]; omega)]
    simp only [List.length_set]
    rw [elem_set_self v (by omega)]
  · intro s s1 i v hwf h
    obtain ⟨hwf1, harr, hn⟩ := SegmentTree.update_SegWF hwf h
    obtain ⟨h0, hlt, _⟩ := SegmentTree.update_ok_seg h
    obtain ⟨j, rfl⟩ : ∃ j : ℕ, i = (j : ℤ) := ⟨i.toNat, (Int.toNat_of_nonneg h0).symm⟩
    simp only [Int.toNat_natCast] at hlt harr ⊢
    rw [SegmentTree.query_eq_scanMin_seg hwf1 (Nat.le_refl _)
        (by rw [harr, List.length_set]; omega),
      scanMin_singleton, harr, elem_set_self v (by omega)]
  · intro s s1 i v hsp h
    have hsn := hsp.1
    obtain ⟨hsp1, harr, hn1, hlt1, hcells⟩ := SparseTable.update_SPShape hsp h
    obtain ⟨h0, hlt, _, _⟩ := SparseTable.update_ok_sparse h
    obtain ⟨hln1, hltB, _, _⟩ := hsp1
    obtain ⟨j, rfl⟩ : ∃ j : ℕ, i = (j : ℤ) := ⟨i.toNat, (Int.toNat_of_nonneg h0).symm⟩
    simp only [Int.toNat_natCast] at hlt harr ⊢
    have hrr : j < s1.array.length := by
      rw [harr, List.length_set]
      omega
    rw [SparseTable.query_eq_scanMin_sparse hln1 hltB (by rw [hn1]; exact hcells)
        (Nat.le_refl _) hrr,
      scanMin_singleton, harr, elem_set_self v (by omega)]

/-- Witness for C8: `update(0, 9.0)` then `query(0, 0)` on concrete
instances of each strategy. -/
theorem claim_C8_update_visibility_witness :
    Naive.query (stepState (Naive.update ⟨[5, 3]⟩ (.int 0) (.float 9)) ⟨[]⟩)
      (.int 0) (.int 0) =
      .ok (9, stepState (Naive.update ⟨[5, 3]⟩ (.int 0) (.float 9)) ⟨[]⟩) ∧
    SRD.query (stepState (SRD.update (initState (SRD.init [5, 3]) ⟨[], 0, 0, []⟩)
        (.int 0) (.float 9)) ⟨[], 0, 0, []⟩) (.int 0) (.int 0) =
      .ok (9, stepState (SRD.update (initState (SRD.init [5, 3]) ⟨[], 0, 0, []⟩)
        (.int 0) (.float 9)) ⟨[], 0, 0, []⟩) ∧
    SegmentTree.query (stepState (SegmentTree.update
        (initState (SegmentTree.init [5, 3]) ⟨[], 0, fun _ => ⊤⟩)
        (.int 0) (.float 9)) ⟨[], 0, fun _ => ⊤⟩) (.int 0) (.int 0) =
      .ok (9, stepState (SegmentTree.update
        (initState (SegmentTree.init [5, 3]) ⟨[], 0, fun _ => ⊤⟩)
        (.int 0) (.float 9)) ⟨[], 0, fun _ => ⊤⟩) ∧
    SparseTable.query (stepState (SparseTable.update
        (initState (SparseTable.init [5, 3, 8]) ⟨[], 0, [], []⟩)
        (.int 0) (.float 9)) ⟨[], 0, [], []⟩) (.int 0) (.int 0) =
      .ok (9, stepState (SparseTable.update
        (initState (SparseTable.init [5, 3, 8]) ⟨[], 0, [], []⟩)
        (.int 0) (.float 9)) ⟨[], 0, [], []⟩) :=
  ⟨claim_C8_update_visibility.1 ⟨[5, 3]⟩ _ 0 9 (by decide),
   claim_C8_update_visibility.2.1 (initState (SRD.init [5, 3]) ⟨[], 0, 0, []⟩) _ 0 9
     (by decide),
   claim_C8_update_visibility.2.2.1
     (initState (SegmentTree.init [5, 3]) ⟨[], 0, fun _ => ⊤⟩) _ 0 9 (by decide) (by rfl),
   claim_C8_update_visibility.2.2.2
     (initState (SparseTable.init [5, 3, 8]) ⟨[], 0, [], []⟩) _ 0 9 (by decide) (by decide)⟩

/-! ### C9: a second identical update is a no-op -/

/-- The tree produced by the update recursion depends on the input tree only
at descendants of `node` (and not on the array argument at all). -/
theorem SegmentTree.updateRec_congr (v : V) (index : ℕ) :
    ∀ fuel a b t u node start en, (∀ m, desc node m → t m = u m) →
      ∀ m, desc node m →
        (SegmentTree.updateRec v index fuel a t node start en).2 m =
          (SegmentTree.updateRec v index fuel b u node start en).2 m := by
  intro fuel
  induction fuel with
  | zero => intro a b t u node start en h m hm; exact h m hm
  | succ fuel ih =>
    intro a b t u node start en h m hm
    rw [SegmentTree.updateRec, SegmentTree.updateRec]
    by_cases he : start = en
    · rw [if_pos he, if_pos he]
      simp only []
      by_cases hmn : m = node
      · rw [hmn, Function.update_same, Function.update_same]
      · rw [Function.update_noteq hmn, Function.update_noteq hmn]
        exact h m hm
    · rw [if_neg he, if_neg he]
      by_cases hi : index ≤ (start + en) / 2
      · rw [if_pos hi, if_pos hi]
        simp only []
        have hchild : ∀ m1, desc (2 * node + 1) m1 → t m1 = u m1 :=
          fun m1 hm1 => h m1 (desc_trans (desc_child_left (desc_refl node)) hm1)
        by_cases hmn : m = node
        · rw [hmn, Function.update_same, Function.update_same,
            ih a b t u (2 * node + 1) start ((start + en) / 2) hchild
              (2 * node + 1) (desc_refl _),
            SegmentTree.updateRec_frame v index fuel a t (2 * node + 1) start
              ((start + en) / 2) (2 * node + 2)
              (fun hc => desc_sibling_disjoint hc (desc_refl _)),
            SegmentTree.updateRec_frame v index fuel b u (2 * node + 1) start
              ((start + en) / 2) (2 * node + 2)
              (fun hc => desc_sibling_disjoint hc (desc_refl _)),
            h (2 * node + 2) (desc_child_right (desc_refl node))]
        · rw [Function.update_noteq hmn, Function.update_noteq hmn]
          by_cases hdm : desc (2 * node + 1) m
          · exact ih a b t u (2 * node + 1) start ((start + en) / 2) hchild m hdm
          · rw [SegmentTree.updateRec_frame v index fuel a t (2 * node + 1) start
                ((start + en) / 2) m hdm,
              SegmentTree.updateRec_frame v index fuel b u (2 * node + 1) start
                ((start + en) / 2) m hdm]
            exact h m hm
      · rw [if_neg hi, if_neg hi]
        simp only []
        have hchild : ∀ m1, desc (2 * node + 2) m1 → t m1 = u m1 :=
          fun m1 hm1 => h m1 (desc_trans (desc_child_right (desc_refl node)) hm1)
        by_cases hmn : m = node
        · rw [hmn, Function.update_same, Function.update_same,
            ih a b t u (2 * node + 2) ((start + en) / 2 + 1) en hchild
              (2 * node + 2) (desc_refl _),
            SegmentTree.updateRec_frame v index fuel a t (2 * node + 2)
              ((start + en) / 2 + 1) en (2 * node + 1)
              (fun hc => desc_sibling_disjoint (desc_refl _) hc),
            SegmentTree.updateRec_frame v index fuel b u (2 * node + 2)
              ((start + en) / 2 + 1) en (2 * node + 1)
              (fun hc => desc_sibling_disjoint (desc_refl _) hc),
            h (2 * node + 1) (desc_child_left (desc_refl node))]
        · rw [Function.update_noteq hmn, Function.update_noteq hmn]
          by_cases hdm : desc (2 * node + 2) m
          · exact ih a b t u (2 * node + 2) ((start + en) / 2 + 1) en hchild m hdm
          · rw [SegmentTree.updateRec_frame v index fuel a t (2 * node + 2)
                ((start + en) / 2 + 1) en m hdm,
              SegmentTree.updateRec_frame v index fuel b u (2 * node + 2)
                ((start + en) / 2 + 1) en m hdm]
            exact h m hm

/-- Running the update recursion twice with the same value and index yields
the same tree as running it once. -/
theorem SegmentTree.updateRec_idem (v : V) (index : ℕ) :
    ∀ fuel a b t node start en, start ≤ en → en - start < fuel →
      (SegmentTree.updateRec v index fuel b
        (SegmentTree.updateRec v index fuel a t node start en).2 node start en).2 =
      (SegmentTree.updateRec v index fuel a t node start en).2 := by
  intro fuel
  induction fuel with
  | zero => intro a b t node start en _ h1; omega
  | succ fuel ih =>
    intro a b t node start en hse h1
    by_cases he : start = en
    · have hstep : ∀ (c : List V) (u : ℕ → V),
          (SegmentTree.updateRec v index (fuel + 1) c u node start en).2 =
            Function.update u node v := by
        intro c u
        rw [SegmentTree.updateRec, if_pos he]
      rw [hstep, hstep, Function.update_idem]
    · by_cases hi : index ≤ (start + en) / 2
      · have hmid1 : start ≤ (start + en) / 2 := by omega
        have hmid2 : (start + en) / 2 - start < fuel := by omega
        have hstep : ∀ (c : List V) (u : ℕ → V),
            (SegmentTree.updateRec v index (fuel + 1) c u node start en).2 =
              Function.update
                (SegmentTree.updateRec v index fuel c u (2 * node + 1) start
                  ((start + en) / 2)).2 node
                (min ((SegmentTree.updateRec v index fuel c u (2 * node + 1) start
                    ((start + en) / 2)).2 (2 * node + 1))
                  ((SegmentTree.updateRec v index fuel c u (2 * node + 1) start
                    ((start + en) / 2)).2 (2 * node + 2))) := by
          intro c u
          rw [SegmentTree.updateRec, if_neg he, if_pos hi]
        rw [hstep, hstep]
        have hLL : ∀ m, desc (2 * node + 1) m →
            (SegmentTree.updateRec v index fuel b
              (Function.update
                (SegmentTree.updateRec v index fuel a t (2 * node + 1) start
                  ((start + en) / 2)).2 node
                (min ((SegmentTree.updateRec v index fuel a t (2 * node + 1) start
                    ((start + en) / 2)).2 (2 * node + 1))
                  ((SegmentTree.updateRec v index fuel a t (2 * node + 1) start
                    ((start + en) / 2)).2 (2 * node + 2))))
              (2 * node + 1) start ((start + en) / 2)).2 m =
            (SegmentTree.updateRec v index fuel a t (2 * node + 1) start
              ((start + en) / 2)).2 m := by
          intro m hm
          rw [SegmentTree.updateRec_congr v index fuel b b
            (Function.update
              (SegmentTree.updateRec v index fuel a t (2 * node + 1) start
                ((start + en) / 2)).2 node
              (min ((SegmentTree.updateRec v index fuel a t (2 * node + 1) start
                  ((start + en) / 2)).2 (2 * node + 1))
                ((SegmentTree.updateRec v index fuel a t (2 * node + 1) start
                  ((start + en) / 2)).2 (2 * node + 2))))
            (SegmentTree.updateRec v index fuel a t (2 * node + 1) start
              ((start + en) / 2)).2 (2 * node + 1) start ((start + en) / 2)
            (fun m1 hm1 =>
              Function.update_noteq (by have := desc_ge hm1; omega) _ _)
            m hm,
            ih a b t (2 * node + 1) start ((start + en) / 2) hmid1 hmid2]
        funext m
        by_cases hmn : m = node
        · rw [hmn, Function.update_same, Function.update_same,
            hLL (2 * node + 1) (desc_refl _),
            SegmentTree.updateRec_frame v index fuel b _ (2 * node + 1) start
              ((start + en) / 2) (2 * node + 2)
              (fun hc => desc_sibling_disjoint hc (desc_refl _)),
            Function.update_noteq (by omega : 2 * node + 2 ≠ node)]
        · rw [Function.update_noteq hmn, Function.update_noteq hmn]
          by_cases hdm : desc (2 * node + 1) m
          · exact hLL m hdm
          · rw [SegmentTree.updateRec_frame v index fuel b _ (2 * node + 1) start
                ((start + en) / 2) m hdm,
              Function.update_noteq hmn]
      · have hmid1 : (start + en) / 2 + 1 ≤ en := by omega
        have hmid2 : en - ((start + en) / 2 + 1) < fuel := by omega
        have hstep : ∀ (c : List V) (u : ℕ → V),
            (SegmentTree.updateRec v index (fuel + 1) c u node start en).2 =
              Function.update
                (SegmentTree.updateRec v index fuel c u (2 * node + 2)
                  ((start + en) / 2 + 1) en).2 node
                (min ((SegmentTree.updateRec v index fuel c u (2 * node + 2)
                    ((start + en) / 2 + 1) en).2 (2 * node + 1))
                  ((SegmentTree.updateRec v index fuel c u (2 * node + 2)
                    ((start + en) / 2 + 1) en).2 (2 * node + 2))) := by
          intro c u
          rw [SegmentTree.updateRec, if_neg he, if_neg hi]
        rw [hstep, hstep]
        have hLL : ∀ m, desc (2 * node + 2) m →
            (SegmentTree.updateRec v index fuel b
              (Function.update
                (SegmentTree.updateRec v index fuel a t (2 * node + 2)
                  ((start + en) / 2 + 1) en).2 node
                (min ((SegmentTree.updateRec v index fuel a t (2 * node + 2)
                    ((start + en) / 2 + 1) en).2 (2 * node + 1))
                  ((SegmentTree.updateRec v index fuel a t (2 * node + 2)
                    ((start + en) / 2 + 1) en).2 (2 * node + 2))))
              (2 * node + 2) ((start + en) / 2 + 1) en).2 m =
            (SegmentTree.updateRec v index fuel a t (2 * node + 2)
              ((start + en) / 2 + 1) en).2 m := by
          intro m hm
          rw [SegmentTree.updateRec_congr v index fuel b b
            (Function.update
              (SegmentTree.updateRec v index fuel a t (2 * node + 2)
                ((start + en) / 2 + 1) en).2 node
              (min ((SegmentTree.updateRec v index fuel a t (2 * node + 2)
                  ((start + en) / 2 + 1) en).2 (2 * node + 1))
                ((SegmentTree.updateRec v index fuel a t (2 * node + 2)
                  ((start + en) / 2 + 1) en).2 (2 * node + 2))))
            (SegmentTree.updateRec v index fuel a t (2 * node + 2)
              ((start + en) / 2 + 1) en).2 (2 * node + 2) ((start + en) / 2 + 1) en
            (fun m1 hm1 =>
              Function.update_noteq (by have := desc_ge hm1; omega) _ _)
            m hm,
            ih a b t (2 * node + 2) ((start + en) / 2 + 1) en hmid1 hmid2]
        funext m
        by_cases hmn : m = node
        · rw [hmn, Function.update_same, Function.update_same,
            hLL (2 * node + 2) (desc_refl _),
            SegmentTree.updateRec_frame v index fuel b _ (2 * node + 2)
              ((start + en) / 2 + 1) en (2 * node + 1)
              (fun hc => desc_sibling_disjoint (desc_refl _) hc),
            Function.update_noteq (by omega : 2 * node + 1 ≠ node)]
        · rw [Function.update_noteq hmn, Function.update_noteq hmn]
          by_cases hdm : desc (2 * node + 2) m
          · exact hLL m hdm
          · rw [SegmentTree.updateRec_frame v index fuel b _ (2 * node + 2)
                ((start + en) / 2 + 1) en m hdm,
              Function.update_noteq hmn]

/-- Two tables of the same shape with equal reads everywhere are equal. -/
theorem SparseTable.st_ext {st st2 : List (List V)} {n k : ℕ} (h : Shape st n k)
    (h2 : Shape st2 n k)
    (hg : ∀ p q, SparseTable.getST st p q = SparseTable.getST st2 p q) :
    st = st2 := by
  apply List.ext_getElem (by rw [h.1, h2.1])
  intro p h1 h1b
  apply List.ext_getElem
  · rw [h.2 _ (List.getElem_mem h1), h2.2 _ (List.getElem_mem h1b)]
  · intro q hq1 hq2
    have hgpq := hg p q
    rw [SparseTable.getST, SparseTable.getST, getD_eq_getElem h1 [],
      getD_eq_getElem h1b [], getD_eq_getElem hq1 ⊤, getD_eq_getElem hq2 ⊤] at hgpq
    exact hgpq

/-- C9: for every strategy, repeating an identical `update(i, v)` twice in
immediate succession leaves the structure in exactly the state reached after
one `update(i, v)`, so every subsequent query returns the same result (for
`SparseTable` this is stated on well-shaped states, which every constructed
instance satisfies). -/
theorem claim_C9_double_update_noop :
    (∀ (s s1 s2 : Naive.State) (i : ℤ) (v : V),
        Naive.update s (.int i) (.float v) = .ok s1 →
        Naive.update s1 (.int i) (.float v) = .ok s2 →
        s2 = s1 ∧ ∀ lv rv : PyVal, Naive.query s2 lv rv = Naive.query s1 lv rv) ∧
    (∀ (s s1 s2 : SRD.State) (i : ℤ) (v : V),
        SRD.update s (.int i) (.float v) = .ok s1 →
        SRD.update s1 (.int i) (.float v) = .ok s2 →
        s2 = s1 ∧ ∀ lv rv : PyVal, SRD.query s2 lv rv = SRD.query s1 lv rv) ∧
    (∀ (s s1 s2 : SegmentTree.State) (i : ℤ) (v : V),
        SegmentTree.update s (.int i) (.float v) = .ok s1 →
        SegmentTree.update s1 (.int i) (.float v) = .ok s2 →
        s2 = s1 ∧ ∀ lv rv : PyVal,
          SegmentTree.query s2 lv rv = SegmentTree.query s1 lv rv) ∧
    (∀ (s s1 s2 : SparseTable.State) (i : ℤ) (v : V), SPShape s →
        SparseTable.update s (.int i) (.float v) = .ok s1 →
        SparseTable.update s1 (.int i) (.float v) = .ok s2 →
        s2 = s1 ∧ ∀ lv rv : PyVal,
          SparseTable.query s2 lv rv = SparseTable.query s1 lv rv) := by
  refine ⟨?_, ?_, ?_, ?_⟩
  · intro s s1 s2 i v h h2
    obtain ⟨-, -, hs1⟩ := Naive.update_ok_naive h
    obtain ⟨-, -, hs2⟩ := Naive.update_ok_naive h2
    have hss : s2 = s1 := by
      rw [hs2, hs1]
      show (⟨(s.array.set i.toNat v).set i.toNat v⟩ : Naive.State) = _
      rw [List.set_set]
    exact ⟨hss, fun lv rv => by rw [hss]⟩
  · intro s s1 s2 i v h h2
    obtain ⟨-, -, hs1⟩ := SRD.update_ok_srd h
    obtain ⟨-, -, hs2⟩ := SRD.update_ok_srd h2
    have ha1 : s1.array = s.array.set i.toNat v := by rw [hs1]
    have hb1 : s1.block_size = s.block_size := by rw [hs1]
    have hf1 : s1.feed = s.feed.set (i.toNat / s.block_size)
        (min (s.feed.getD (i.toNat / s.block_size) ⊤) v) := by rw [hs1]
    have harr : s1.array.set i.toNat v = s1.array := by
      rw [ha1, List.set_set]
    have hfeed : s1.feed.set (i.toNat / s1.block_size)
        (min (s1.feed.getD (i.toNat / s1.block_size) ⊤) v) = s1.feed := by
      rw [hb1, hf1]
      by_cases hbl : i.toNat / s.block_size < s.feed.length
      · rw [getD_set_self _ hbl ⊤, min_assoc, min_self, List.set_set]
      · have hge : s.feed.length ≤ i.toNat / s.block_size := by omega
        have e1 : s.feed.set (i.toNat / s.block_size)
            (min (s.feed.getD (i.toNat / s.block_size) ⊤) v) = s.feed := by
          rw [List.set_eq_of_length_le hge]
        rw [e1]
        exact e1
    have hss : s2 = s1 := by
      rw [hs2, harr, hfeed]
    exact ⟨hss, fun lv rv => by rw [hss]⟩
  · intro s s1 s2 i v h h2
    obtain ⟨-, -, hs1⟩ := SegmentTree.update_ok_seg h
    obtain ⟨-, -, hs2⟩ := SegmentTree.update_ok_seg h2
    have ha1 : s1.array =
        (SegmentTree.updateRec v i.toNat s.n s.array s.tree 0 0 (s.n - 1)).1 := by
      rw [hs1]
    have hn1 : s1.n = s.n := by rw [hs1]
    have ht1 : s1.tree =
        (SegmentTree.updateRec v i.toNat s.n s.array s.tree 0 0 (s.n - 1)).2 := by
      rw [hs1]
    rcases Nat.eq_zero_or_pos s.n with hn0 | hnpos
    · have hstep0 : SegmentTree.updateRec v i.toNat s1.n s1.array s1.tree 0 0 (s1.n - 1) =
          (s1.array, s1.tree) := by
        rw [hn1, hn0]
        rfl
      have hss : s2 = s1 := by
        rw [hs2, hstep0]
      exact ⟨hss, fun lv rv => by rw [hss]⟩
    · have harr1 : (SegmentTree.updateRec v i.toNat s.n s.array s.tree 0 0 (s.n - 1)).1 =
          s.array.set i.toNat v :=
        SegmentTree.updateRec_array v i.toNat s.n s.array s.tree 0 0 (s.n - 1)
          (by omega) (by omega)
      have harr2 : (SegmentTree.updateRec v i.toNat s.n s1.array
          (SegmentTree.updateRec v i.toNat s.n s.array s.tree 0 0 (s.n - 1)).2
          0 0 (s.n - 1)).1 = s1.array.set i.toNat v :=
        SegmentTree.updateRec_array v i.toNat s.n s1.array _ 0 0 (s.n - 1)
          (by omega) (by omega)
      have hidem : (SegmentTree.updateRec v i.toNat s.n s1.array
          (SegmentTree.updateRec v i.toNat s.n s.array s.tree 0 0 (s.n - 1)).2
          0 0 (s.n - 1)).2 =
          (SegmentTree.updateRec v i.toNat s.n s.array s.tree 0 0 (s.n - 1)).2 :=
        SegmentTree.updateRec_idem v i.toNat s.n s.array s1.array s.tree 0 0 (s.n - 1)
          (by omega) (by omega)
      have hss : s2 = s1 := by
        rw [hs2, hn1, ht1, hidem, harr2, ha1, harr1, List.set_set, ← harr1, ← ha1,
          ← ht1, ← hn1]
      exact ⟨hss, fun lv rv => by rw [hss]⟩
  · intro s s1 s2 i v hsp h h2
    obtain ⟨hsp1, ha1, hn1, hl1, hcells1⟩ := SparseTable.update_SPShape hsp h
    obtain ⟨h0, hlt, -, -⟩ := SparseTable.update_ok_sparse h
    obtain ⟨-, -, hbuild2, hs2⟩ := SparseTable.update_ok_sparse h2
    have harr2 : s1.array.set i.toNat v = s1.array := by
      rw [ha1, List.set_set]
    rw [harr2] at hbuild2 hs2
    obtain ⟨hln1, hltB1, hshape1, hnp1⟩ := hsp1
    have hnpos : 0 < s1.n := by omega
    have hk : 0 < ceilLog2 s1.n := ceilLog2_pos (nonpow2_two_le hnpos hnp1)
    obtain ⟨st2, hok, hsh2, hcells2, hframe2⟩ := @SparseTable.buildSparse_ok
      s1.array s1.n (ceilLog2 s1.n) s1.st hshape1 hnpos hk
      (fun q hq1 hq2 => ceilLog2_level_lt hnpos hnp1 hq1 hq2)
    rw [hok] at hbuild2
    obtain hst2 := Except.ok.inj hbuild2
    have hstq : s2.st = s1.st := by
      rw [← hst2]
      apply SparseTable.st_ext hsh2 hshape1
      intro p q
      by_cases hq0 : q = 0
      · subst hq0
        by_cases hp : p + 1 ≤ s1.n
        · have hc2 := hcells2 0 p (by rw [pow_zero]; omega) (by rw [pow_zero]; omega)
          have hc1 := hcells1 0 p (by rw [pow_zero, ← hn1]; omega)
            (by rw [pow_zero, ← hn1]; omega)
          rw [cellOK] at hc2 hc1
          rw [hc2, hc1]
        · rw [hframe2 p 0 (by rintro ⟨-, hcp⟩; omega) (by rintro ⟨hc1, -⟩; omega)]
      · by_cases hD : 2 ^ q ≤ s1.n ∧ p + 2 ^ q ≤ s1.n
        · have hc2 := hcells2 q p hD.1 hD.2
          have hc1 := hcells1 q p (by rw [← hn1]; exact hD.1) (by rw [← hn1]; exact hD.2)
          rw [cellOK] at hc2 hc1
          rw [hc2, hc1]
        · rw [hframe2 p q (by rintro ⟨hq, -⟩; exact hq0 hq)
            (by rintro ⟨-, hq2, hq3⟩; exact hD ⟨hq2, hq3⟩)]
    have hss : s2 = s1 := by
      rw [hs2, hstq]
    exact ⟨hss, fun lv rv => by rw [hss]⟩

/-- Witness for C9: two identical `update(0, 9.0)` calls followed by
`query(0, 1)` on concrete instances of each strategy. -/
theorem claim_C9_double_update_noop_witness :
    Naive.query (stepState (Naive.update (stepState (Naive.update ⟨[5, 3]⟩ (.int 0)
        (.float 9)) ⟨[]⟩) (.int 0) (.float 9)) ⟨[]⟩) (.int 0) (.int 1) =
      Naive.query (stepState (Naive.update ⟨[5, 3]⟩ (.int 0) (.float 9)) ⟨[]⟩)
        (.int 0) (.int 1) ∧
    SRD.query (stepState (SRD.update (stepState (SRD.update
        (initState (SRD.init [5, 3]) ⟨[], 0, 0, []⟩) (.int 0) (.float 9)) ⟨[], 0, 0, []⟩)
        (.int 0) (.float 9)) ⟨[], 0, 0, []⟩) (.int 0) (.int 1) =
      SRD.query (stepState (SRD.update (initState (SRD.init [5, 3]) ⟨[], 0, 0, []⟩)
        (.int 0) (.float 9)) ⟨[], 0, 0, []⟩) (.int 0) (.int 1) ∧
    SegmentTree.query (stepState (SegmentTree.update (stepState (SegmentTree.update
        (initState (SegmentTree.init [5, 3]) ⟨[], 0, fun _ => ⊤⟩) (.int 0) (.float 9))
        ⟨[], 0, fun _ => ⊤⟩) (.int 0) (.float 9)) ⟨[], 0, fun _ => ⊤⟩) (.int 0) (.int 1) =
      SegmentTree.query (stepState (SegmentTree.update
        (initState (SegmentTree.init [5, 3]) ⟨[], 0, fun _ => ⊤⟩) (.int 0) (.float 9))
        ⟨[], 0, fun _ => ⊤⟩) (.int 0) (.int 1) ∧
    SparseTable.query (stepState (SparseTable.update (stepState (SparseTable.update
        (initState (SparseTable.init [5, 3, 8]) ⟨[], 0, [], []⟩) (.int 0) (.float 9))
        ⟨[], 0, [], []⟩) (.int 0) (.float 9)) ⟨[], 0, [], []⟩) (.int 0) (.int 1) =
      SparseTable.query (stepState (SparseTable.update
        (initState (SparseTable.init [5, 3, 8]) ⟨[], 0, [], []⟩) (.int 0) (.float 9))
        ⟨[], 0, [], []⟩) (.int 0) (.int 1) :=
  ⟨(claim_C9_double_update_noop.1 ⟨[5, 3]⟩ _ _ 0 9 (by decide) (by decide)).2
      (.int 0) (.int 1),
   (claim_C9_double_update_noop.2.1 (initState (SRD.init [5, 3]) ⟨[], 0, 0, []⟩) _ _ 0 9
      (by decide) (by decide)).2 (.int 0) (.int 1),
   (claim_C9_double_update_noop.2.2.1
      (initState (SegmentTree.init [5, 3]) ⟨[], 0, fun _ => ⊤⟩) _ _ 0 9
      (by rfl) (by rfl)).2 (.int 0) (.int 1),
   (claim_C9_double_update_noop.2.2.2
      (initState (SparseTable.init [5, 3, 8]) ⟨[], 0, [], []⟩) _ _ 0 9
      (by decide) (by decide) (by decide)).2 (.int 0) (.int 1)⟩
